import Mathlib

/-!
File-backed ring buffer (`RingBuffer.h`, `RingBuffer.cpp`).

A shallow embedding of the classes `FileManager` and `RingBuffer`.

* The backing file is the list of its bytes.  `size_t` is taken to be 8 bytes
  wide, and `RingBufferHeader` is laid out as four little-endian `size_t`
  fields without padding (the LP64 layout).
* `size_t` arithmetic is arithmetic modulo `2 ^ 64`.
* A `std::fstream` keeps its error state: once an operation has failed the
  stream is no longer `good()` and, since nothing calls `clear()`, every later
  operation on the same handle fails too.  Storage is idealised: a read fails
  when the file is too short, a write on a good stream goes through.
* Every operation returns its outcome together with the object after the call,
  because a C++ exception leaves the writes made before it in place.
* The two places where the code can leave defined behaviour, the remainder by
  a zero capacity and the construction of a `std::string` from an unterminated
  buffer, are outcomes of their own.
-/

namespace RingBufferSpec

/-- One `char` of a message or of the file. -/
abbrev Byte := Fin 256

/-- The constant `MAX_MESSAGE_LENGTH` of `RingBuffer.h`. -/
def MAX_MESSAGE_LENGTH : Nat := 20

/-- The value of `sizeof(size_t)`. -/
def W : Nat := 8

/-- The number of values of a `size_t`, `SIZE_MAX + 1`. -/
def SIZE_MOD : Nat := 2 ^ (8 * W)

/-- The struct `RingBufferHeader`; every field is a `size_t`. -/
structure RingBufferHeader where
  capacity : Nat
  head : Nat
  tail : Nat
  count : Nat
  deriving DecidableEq, Repr

/-- The value of `sizeof(RingBufferHeader)`: four `size_t` fields. -/
def sizeofHeader : Nat := 4 * W

/-- The constant `RingBuffer::HEADER_OFFSET`. -/
def HEADER_OFFSET : Nat := 0

/-- The `w` little-endian bytes of the object representation of `n`. -/
def encodeLE : Nat → Nat → List Byte
  | 0, _ => []
  | w + 1, n => Fin.ofNat (n % 256) :: encodeLE w (n / 256)

/-- The unsigned integer whose little-endian object representation is `bs`. -/
def decodeLE : List Byte → Nat
  | [] => 0
  | b :: bs => b.val + 256 * decodeLE bs

/-- The object representation of a header, as `write(&header, sizeof(header), ..)`
sees it. -/
def encodeHeader (h : RingBufferHeader) : List Byte :=
  encodeLE W h.capacity ++ (encodeLE W h.head ++ (encodeLE W h.tail ++ encodeLE W h.count))

/-- The header whose object representation is `bs`, as
`read(&header, sizeof(header), ..)` fills it. -/
def decodeHeader (bs : List Byte) : RingBufferHeader :=
  { capacity := decodeLE (bs.take W)
    head := decodeLE ((bs.drop W).take W)
    tail := decodeLE ((bs.drop (2 * W)).take W)
    count := decodeLE ((bs.drop (3 * W)).take W) }

/-- The `std::runtime_error`s the two classes throw, by their message. -/
inductive Error where
  /-- The message is "Failed to open file: <path>". -/
  | openFailed
  /-- The message is "Write operation failed". -/
  | writeFailed
  /-- The message is "Read operation failed". -/
  | readFailed
  /-- The message is "Message too long". -/
  | messageTooLong
  /-- The message is "Buffer full". -/
  | bufferFull
  /-- The message is "Buffer empty". -/
  | bufferEmpty
  deriving DecidableEq, Repr

/-- The ways a call can leave defined behaviour. -/
inductive Fault where
  /-- The result of `x % header.capacity` with `header.capacity == 0`. -/
  | divisionByZero
  /-- The call `std::string(buffer.data())` on a buffer holding no zero byte:
  the scan for the terminator reads past the end of the vector. -/
  | unterminatedString
  deriving DecidableEq, Repr

/-- How a call ends. -/
inductive Outcome (α : Type) where
  /-- The call returns a value. -/
  | ok (a : α)
  /-- The call throws a `std::runtime_error`. -/
  | threw (e : Error)
  /-- The call reaches undefined behaviour. -/
  | undefined (u : Fault)
  deriving DecidableEq, Repr

/-- One call of `FileManager::read` or `FileManager::write`: position and size. -/
inductive IOOp where
  | read (pos size : Nat)
  | write (pos size : Nat)
  deriving DecidableEq, Repr

/-- What a path names when a `FileManager` is constructed on it. -/
inductive PathState where
  /-- The path cannot be opened at all (invalid directory, permissions). -/
  | unopenable
  /-- No file is there, and one can be made. -/
  | absent
  /-- A file with these bytes is there. -/
  | present (bytes : List Byte)
  deriving DecidableEq, Repr

/-- The class `FileManager`: the bytes of the file behind `file_`, whether the
stream is `good()`, and the calls made so far (oldest first). -/
structure FileManager where
  bytes : List Byte
  good : Bool
  log : List IOOp
  deriving DecidableEq, Repr

/-- The bytes of a file after `data` is written at offset `pos`: a write that
starts past the end leaves a gap of zero bytes, one that runs past the end
lengthens the file. -/
def writeAt (bytes : List Byte) (pos : Nat) (data : List Byte) : List Byte :=
  bytes.take pos ++ (List.replicate (pos - bytes.length) 0 ++
    (data ++ bytes.drop (pos + data.length)))

/-- The constructor `FileManager::FileManager(path, create_new)`: with
`create_new` the mode has `trunc`, which empties the file or makes it;
without, the file has to be there. -/
def FileManager.open (path : PathState) (create_new : Bool) : Outcome FileManager :=
  match path, create_new with
  | .unopenable, _ => .threw .openFailed
  | .absent, true => .ok { bytes := [], good := true, log := [] }
  | .absent, false => .threw .openFailed
  | .present _, true => .ok { bytes := [], good := true, log := [] }
  | .present bs, false => .ok { bytes := bs, good := true, log := [] }

/-- The method `FileManager::write(data, size, pos)`: `seekp`, `write`, then the
`good()` test. -/
def FileManager.write (fm : FileManager) (data : List Byte) (size pos : Nat) :
    Outcome Unit × FileManager :=
  if fm.good then
    (.ok (), { fm with bytes := writeAt fm.bytes pos (data.take size)
                       log := fm.log ++ [.write pos size] })
  else
    (.threw .writeFailed, { fm with log := fm.log ++ [.write pos size] })

/-- The method `FileManager::read(data, size, pos)`: `seekg`, `read`, then the
`good()` test, which fails when fewer than `size` bytes are there. -/
def FileManager.read (fm : FileManager) (size pos : Nat) :
    Outcome (List Byte) × FileManager :=
  if fm.good ∧ pos + size ≤ fm.bytes.length then
    (.ok ((fm.bytes.drop pos).take size), { fm with log := fm.log ++ [.read pos size] })
  else
    (.threw .readFailed, { fm with good := false, log := fm.log ++ [.read pos size] })

/-- The class `RingBuffer` (its `filename_` is only passed on to the
`FileManager`, which here is given the state of that path). -/
structure RingBuffer where
  capacity_ : Nat
  file_manager_ : FileManager
  deriving DecidableEq, Repr

/-- The loop of `initializeBuffer`: `n` more rounds from index `i`, each writing
`MAX_MESSAGE_LENGTH` zero bytes at
`sizeof(RingBufferHeader) + i * MAX_MESSAGE_LENGTH`. -/
def writeEmptySlots : Nat → Nat → FileManager → Outcome Unit × FileManager
  | 0, _, fm => (.ok (), fm)
  | n + 1, i, fm =>
    match fm.write (List.replicate MAX_MESSAGE_LENGTH 0) MAX_MESSAGE_LENGTH
        ((sizeofHeader + i * MAX_MESSAGE_LENGTH) % SIZE_MOD) with
    | (.ok _, fm1) => writeEmptySlots n (i + 1) fm1
    | (.threw e, fm1) => (.threw e, fm1)
    | (.undefined u, fm1) => (.undefined u, fm1)

/-- The method `RingBuffer::initializeBuffer`. -/
def RingBuffer.initializeBuffer (rb : RingBuffer) : Outcome Unit × RingBuffer :=
  let header : RingBufferHeader :=
    { capacity := rb.capacity_, head := 0, tail := 0, count := 0 }
  match rb.file_manager_.write (encodeHeader header) sizeofHeader HEADER_OFFSET with
  | (.ok _, fm1) =>
    match writeEmptySlots rb.capacity_ 0 fm1 with
    | (r, fm2) => (r, { rb with file_manager_ := fm2 })
  | (.threw e, fm1) => (.threw e, { rb with file_manager_ := fm1 })
  | (.undefined u, fm1) => (.undefined u, { rb with file_manager_ := fm1 })

/-- The constructor `RingBuffer::RingBuffer(filename, capacity, initialize)`. -/
def RingBuffer.new (path : PathState) (capacity : Nat) (initialise : Bool) :
    Outcome RingBuffer :=
  match FileManager.open path initialise with
  | .ok fm =>
    let rb : RingBuffer := { capacity_ := capacity, file_manager_ := fm }
    if initialise then
      match rb.initializeBuffer with
      | (.ok _, rb1) => .ok rb1
      | (.threw e, _) => .threw e
      | (.undefined u, _) => .undefined u
    else .ok rb
  | .threw e => .threw e
  | .undefined u => .undefined u

/-- The constructor `RingBuffer::RingBuffer(filename)`. -/
def RingBuffer.attach (path : PathState) : Outcome RingBuffer :=
  match FileManager.open path false with
  | .ok fm =>
    match fm.read sizeofHeader HEADER_OFFSET with
    | (.ok hb, fm1) => .ok { capacity_ := (decodeHeader hb).capacity, file_manager_ := fm1 }
    | (.threw e, _) => .threw e
    | (.undefined u, _) => .undefined u
  | .threw e => .threw e
  | .undefined u => .undefined u

/-- The value of `std::string(buffer.data())`: the bytes before the first zero
byte; when the buffer holds no zero byte the scan leaves the buffer and the
call has no defined value. -/
def cstring (buffer : List Byte) : Option (List Byte) :=
  if (0 : Byte) ∈ buffer then some (buffer.takeWhile (fun b => b ≠ 0)) else none

/-- The vector `buffer` of `pushMessage` after the `memcpy`: `MAX_MESSAGE_LENGTH`
zero bytes with the bytes of `message` copied over the front. -/
def padSlot (message : List Byte) : List Byte :=
  message ++ (List.replicate MAX_MESSAGE_LENGTH (0 : Byte)).drop message.length

/-- The method `RingBuffer::pushMessage`. -/
def RingBuffer.pushMessage (rb : RingBuffer) (message : List Byte) :
    Outcome Unit × RingBuffer :=
  if message.length > MAX_MESSAGE_LENGTH then (.threw .messageTooLong, rb)
  else
    match rb.file_manager_.read sizeofHeader HEADER_OFFSET with
    | (.threw e, fm1) => (.threw e, { rb with file_manager_ := fm1 })
    | (.undefined u, fm1) => (.undefined u, { rb with file_manager_ := fm1 })
    | (.ok hb, fm1) =>
      let header := decodeHeader hb
      if header.count ≥ header.capacity then
        (.threw .bufferFull, { rb with file_manager_ := fm1 })
      else
        let buffer := padSlot message
        let pos := (sizeofHeader + header.tail * MAX_MESSAGE_LENGTH) % SIZE_MOD
        match fm1.write buffer MAX_MESSAGE_LENGTH pos with
        | (.threw e, fm2) => (.threw e, { rb with file_manager_ := fm2 })
        | (.undefined u, fm2) => (.undefined u, { rb with file_manager_ := fm2 })
        | (.ok _, fm2) =>
          if header.capacity = 0 then
            (.undefined .divisionByZero, { rb with file_manager_ := fm2 })
          else
            let header1 := { header with tail := ((header.tail + 1) % SIZE_MOD) % header.capacity }
            let header2 := { header1 with count := (header1.count + 1) % SIZE_MOD }
            match fm2.write (encodeHeader header2) sizeofHeader HEADER_OFFSET with
            | (r, fm3) => (r, { rb with file_manager_ := fm3 })

/-- The method `RingBuffer::popMessage`. -/
def RingBuffer.popMessage (rb : RingBuffer) : Outcome (List Byte) × RingBuffer :=
  match rb.file_manager_.read sizeofHeader HEADER_OFFSET with
  | (.threw e, fm1) => (.threw e, { rb with file_manager_ := fm1 })
  | (.undefined u, fm1) => (.undefined u, { rb with file_manager_ := fm1 })
  | (.ok hb, fm1) =>
    let header := decodeHeader hb
    if header.count = 0 then
      (.threw .bufferEmpty, { rb with file_manager_ := fm1 })
    else
      let pos := (sizeofHeader + header.head * MAX_MESSAGE_LENGTH) % SIZE_MOD
      match fm1.read MAX_MESSAGE_LENGTH pos with
      | (.threw e, fm2) => (.threw e, { rb with file_manager_ := fm2 })
      | (.undefined u, fm2) => (.undefined u, { rb with file_manager_ := fm2 })
      | (.ok buffer, fm2) =>
        match fm2.write (List.replicate MAX_MESSAGE_LENGTH 0) MAX_MESSAGE_LENGTH pos with
        | (.threw e, fm3) => (.threw e, { rb with file_manager_ := fm3 })
        | (.undefined u, fm3) => (.undefined u, { rb with file_manager_ := fm3 })
        | (.ok _, fm3) =>
          if header.capacity = 0 then
            (.undefined .divisionByZero, { rb with file_manager_ := fm3 })
          else
            let header1 := { header with head := ((header.head + 1) % SIZE_MOD) % header.capacity }
            let header2 := { header1 with count := (header1.count - 1) % SIZE_MOD }
            match fm3.write (encodeHeader header2) sizeofHeader HEADER_OFFSET with
            | (.threw e, fm4) => (.threw e, { rb with file_manager_ := fm4 })
            | (.undefined u, fm4) => (.undefined u, { rb with file_manager_ := fm4 })
            | (.ok _, fm4) =>
              match cstring buffer with
              | some s => (.ok s, { rb with file_manager_ := fm4 })
              | none => (.undefined .unterminatedString, { rb with file_manager_ := fm4 })

/-- The method `RingBuffer::isEmpty`. -/
def RingBuffer.isEmpty (rb : RingBuffer) : Outcome Bool × RingBuffer :=
  match rb.file_manager_.read sizeofHeader HEADER_OFFSET with
  | (.threw e, fm1) => (.threw e, { rb with file_manager_ := fm1 })
  | (.undefined u, fm1) => (.undefined u, { rb with file_manager_ := fm1 })
  | (.ok hb, fm1) =>
    (.ok (decide ((decodeHeader hb).count = 0)), { rb with file_manager_ := fm1 })

/-- The method `RingBuffer::isFull`. -/
def RingBuffer.isFull (rb : RingBuffer) : Outcome Bool × RingBuffer :=
  match rb.file_manager_.read sizeofHeader HEADER_OFFSET with
  | (.threw e, fm1) => (.threw e, { rb with file_manager_ := fm1 })
  | (.undefined u, fm1) => (.undefined u, { rb with file_manager_ := fm1 })
  | (.ok hb, fm1) =>
    (.ok (decide ((decodeHeader hb).count = (decodeHeader hb).capacity)),
      { rb with file_manager_ := fm1 })

/-- The bytes of a text, one per character code (for ASCII texts). -/
def ascii (s : String) : List Byte :=
  s.toList.map (fun c => Fin.ofNat c.toNat)

/-! ## Vocabulary for the statements -/

/-- Every field of the header fits a `size_t`. -/
def RingBufferHeader.Representable (h : RingBufferHeader) : Prop :=
  h.capacity < SIZE_MOD ∧ h.head < SIZE_MOD ∧ h.tail < SIZE_MOD ∧ h.count < SIZE_MOD

/-- The `MAX_MESSAGE_LENGTH` bytes of slot `i` in the slot region of a file. -/
def slotAt (slots : List Byte) (i : Nat) : List Byte :=
  (slots.drop (MAX_MESSAGE_LENGTH * i)).take MAX_MESSAGE_LENGTH

/-- The header the file behind `rb` holds in its first `sizeof(RingBufferHeader)`
bytes. -/
def headerOf (rb : RingBuffer) : RingBufferHeader :=
  decodeHeader (rb.file_manager_.bytes.take sizeofHeader)

/-- The slot region of the file behind `rb`: the bytes after the header. -/
def slotsOf (rb : RingBuffer) : List Byte :=
  rb.file_manager_.bytes.drop sizeofHeader

/-- The header of the file behind `rb` can be read: the stream is good and the
file has at least `sizeof(RingBufferHeader)` bytes. -/
def Readable (rb : RingBuffer) : Prop :=
  rb.file_manager_.good = true ∧ sizeofHeader ≤ rb.file_manager_.bytes.length

instance (rb : RingBuffer) : Decidable (Readable rb) := by
  unfold Readable; infer_instance

/-- A file of `c` slots fits the range of `size_t` offsets. -/
def Fits (c : Nat) : Prop :=
  sizeofHeader + MAX_MESSAGE_LENGTH * c < SIZE_MOD

instance (c : Nat) : Decidable (Fits c) := by
  unfold Fits; infer_instance

/-- The file behind `rb` is, on a good stream, the header `h` followed by the
slot region `slots` of `c` slots. -/
structure Rep (c : Nat) (rb : RingBuffer) (h : RingBufferHeader) (slots : List Byte) : Prop where
  good : rb.file_manager_.good = true
  bytes : rb.file_manager_.bytes = encodeHeader h ++ slots
  len : slots.length = MAX_MESSAGE_LENGTH * c
  cap : h.capacity = c
  fits : Fits c
  repr : h.Representable

/-- The stream after one more call is logged. -/
def FileManager.logged (fm : FileManager) (op : IOOp) : FileManager :=
  { fm with log := fm.log ++ [op] }

/-- The header after a push that goes through. -/
def RingBufferHeader.pushed (h : RingBufferHeader) : RingBufferHeader :=
  { h with tail := (h.tail + 1) % h.capacity, count := h.count + 1 }

/-- The header after a pop that goes through. -/
def RingBufferHeader.popped (h : RingBufferHeader) : RingBufferHeader :=
  { h with head := (h.head + 1) % h.capacity, count := h.count - 1 }

/-- What `popMessage` returns for the slot bytes it has read. -/
def popOutcome (buffer : List Byte) : Outcome (List Byte) :=
  match cstring buffer with
  | some s => .ok s
  | none => .undefined .unterminatedString

/-- The calls `initializeBuffer` makes for the slots `i, i + 1, .., i + n - 1`. -/
def slotWrites (i n : Nat) : List IOOp :=
  (List.range' i n).map
    (fun j => IOOp.write (sizeofHeader + MAX_MESSAGE_LENGTH * j) MAX_MESSAGE_LENGTH)

/-- The queue object over a file that holds the header `{c, 0, 0, 0}` and `c`
slots of zero bytes, with the calls that wrote it. -/
def freshQueue (c : Nat) : RingBuffer :=
  { capacity_ := c
    file_manager_ :=
      { bytes := encodeHeader { capacity := c, head := 0, tail := 0, count := 0 } ++
          List.replicate (MAX_MESSAGE_LENGTH * c) 0
        good := true
        log := IOOp.write HEADER_OFFSET sizeofHeader :: slotWrites 0 c } }

/-- One call on a queue object. -/
inductive Call where
  | pushMessage (message : List Byte)
  | popMessage
  | isEmpty
  | isFull
  deriving DecidableEq, Repr

/-- What a call returns: nothing, a message, or a truth value. -/
inductive Reply where
  | done
  | message (m : List Byte)
  | flag (b : Bool)
  deriving DecidableEq, Repr

/-- The outcome with its value wrapped by `f`. -/
def Outcome.map {α β : Type} (f : α → β) : Outcome α → Outcome β
  | .ok a => .ok (f a)
  | .threw e => .threw e
  | .undefined u => .undefined u

/-- The outcome of one call and the object after it. -/
def RingBuffer.call (rb : RingBuffer) : Call → Outcome Reply × RingBuffer
  | .pushMessage m => ((rb.pushMessage m).1.map (fun _ => Reply.done), (rb.pushMessage m).2)
  | .popMessage => (rb.popMessage.1.map Reply.message, rb.popMessage.2)
  | .isEmpty => (rb.isEmpty.1.map Reply.flag, rb.isEmpty.2)
  | .isFull => (rb.isFull.1.map Reply.flag, rb.isFull.2)

/-- The outcomes of a sequence of calls made one after the other on the same
object, and the object after the last one. -/
def RingBuffer.run : RingBuffer → List Call → List (Outcome Reply) × RingBuffer
  | rb, [] => ([], rb)
  | rb, c :: cs => ((rb.call c).1 :: ((rb.call c).2.run cs).1, ((rb.call c).2.run cs).2)

/-- The invariant of the data model on a header: `count` is at most `capacity`,
`head` and `tail` are indices below `capacity`, and `tail` is `head + count`
reduced modulo `capacity`. -/
def HeaderInv (h : RingBufferHeader) : Prop :=
  h.count ≤ h.capacity ∧ h.head < h.capacity ∧ h.tail < h.capacity ∧
    h.tail = (h.head + h.count) % h.capacity

instance (h : RingBufferHeader) : Decidable (HeaderInv h) := by
  unfold HeaderInv; infer_instance

/-- An abstract bounded FIFO of capacity `c`, its content the list of queued
messages, oldest first: a push appends unless the message is too long or the
list already has `c` messages, a pop takes off the oldest message unless the
list is empty, and the two queries compare the length with `0` and with `c`. -/
def Fifo.call (c : Nat) (q : List (List Byte)) : Call → Outcome Reply × List (List Byte)
  | .pushMessage m =>
    if m.length > MAX_MESSAGE_LENGTH then (.threw .messageTooLong, q)
    else if q.length ≥ c then (.threw .bufferFull, q)
    else (.ok .done, q ++ [m])
  | .popMessage =>
    match q with
    | [] => (.threw .bufferEmpty, [])
    | m :: q1 => (.ok (.message m), q1)
  | .isEmpty => (.ok (.flag (decide (q.length = 0))), q)
  | .isFull => (.ok (.flag (decide (q.length = c))), q)

/-- The outcomes of a sequence of calls on the abstract FIFO, and its content
after the last one. -/
def Fifo.run (c : Nat) : List (List Byte) → List Call → List (Outcome Reply) × List (List Byte)
  | q, [] => ([], q)
  | q, k :: ks =>
    ((Fifo.call c q k).1 :: (Fifo.run c (Fifo.call c q k).2 ks).1,
      (Fifo.run c (Fifo.call c q k).2 ks).2)

/-- What the ring buffer returns for a call that the abstract FIFO with content
`q` answers: the same, but a pop hands out the stored message the way
`popMessage` reads it back from its slot. -/
def observed (c : Nat) (q : List (List Byte)) : Call → Outcome Reply
  | .popMessage =>
    match q with
    | [] => .threw .bufferEmpty
    | m :: _ => (popOutcome (padSlot m)).map Reply.message
  | k => (Fifo.call c q k).1

/-- The file behind `rb` holds the queue `q` in a ring of `c` slots: it is in
canonical form with a header that satisfies the invariant, `count` is the
number of queued messages, the `i`-th queued message sits zero-padded in slot
`(head + i) mod c`, and every other slot is zero bytes. -/
def Holds (c : Nat) (q : List (List Byte)) (rb : RingBuffer) : Prop :=
  ∃ h slots, Rep c rb h slots ∧ HeaderInv h ∧ h.count = q.length ∧
    (∀ m, m ∈ q → m.length ≤ MAX_MESSAGE_LENGTH) ∧
    (∀ i m, q[i]? = some m → slotAt slots ((h.head + i) % c) = padSlot m) ∧
    (∀ j, j < c → (∀ i, i < q.length → (h.head + i) % c ≠ j) →
      slotAt slots j = List.replicate MAX_MESSAGE_LENGTH 0)

/-- A message that survives the slot: shorter than `MAX_MESSAGE_LENGTH` and
without a zero byte. -/
def Clean (m : List Byte) : Prop :=
  m.length < MAX_MESSAGE_LENGTH ∧ (0 : Byte) ∉ m

instance (m : List Byte) : Decidable (Clean m) := by
  unfold Clean; infer_instance

/-- A sequence of calls that fills a queue of capacity 3, pops once, pushes so
that the tail wraps, has a push rejected, and asks both queries. -/
def wrapCalls : List Call :=
  [.pushMessage (ascii "Msg1"), .pushMessage (ascii "Msg2"), .pushMessage (ascii "Msg3"),
   .popMessage, .pushMessage (ascii "Msg4"), .pushMessage (ascii "Msg5"), .isFull, .isEmpty]

/-- The file behind `rb` is a whole queue file on a good stream: after the header
come exactly `capacity` slots, at offsets a `size_t` can hold. -/
def WellFormed (rb : RingBuffer) : Prop :=
  rb.file_manager_.good = true ∧
  rb.file_manager_.bytes.length =
    sizeofHeader + MAX_MESSAGE_LENGTH * (headerOf rb).capacity ∧
  Fits (headerOf rb).capacity

instance (rb : RingBuffer) : Decidable (WellFormed rb) := by
  unfold WellFormed; infer_instance

/-- Two queue objects stand over the same file contents, with streams in the
same state; their `capacity_` and their logs may differ. -/
def SameFile (rb1 rb2 : RingBuffer) : Prop :=
  rb1.file_manager_.bytes = rb2.file_manager_.bytes ∧
  rb1.file_manager_.good = rb2.file_manager_.good

/-- The creating instance of the persistence test when it is dropped: capacity
3, "One" and "Two" pushed. -/
def twoQueued : RingBuffer :=
  ((freshQueue 3).run [.pushMessage (ascii "One"), .pushMessage (ascii "Two")]).2

/-- What a queue of capacity 0 answers to a call. -/
def zeroCapacityReply : Call → Outcome Reply
  | .pushMessage m =>
    if m.length > MAX_MESSAGE_LENGTH then .threw .messageTooLong else .threw .bufferFull
  | .popMessage => .threw .bufferEmpty
  | .isEmpty => .ok (.flag true)
  | .isFull => .ok (.flag true)

/-- The offset of a logged call. -/
def IOOp.pos : IOOp → Nat
  | .read p _ => p
  | .write p _ => p

/-- The number of bytes of a logged call. -/
def IOOp.size : IOOp → Nat
  | .read _ n => n
  | .write _ n => n

/-- The bytes a logged call touches lie inside a file of `c` slots. -/
def IOOp.Within (c : Nat) (op : IOOp) : Prop :=
  op.pos + op.size ≤ sizeofHeader + MAX_MESSAGE_LENGTH * c

/-- The calls of the rounds "push `m`, then pop", one round for each message. -/
def rounds : List (List Byte) → List Call
  | [] => []
  | m :: ms => .pushMessage m :: .popMessage :: rounds ms

/-- The outcomes of rounds in which every call succeeds and every pop hands back
the message just pushed. -/
def roundReplies : List (List Byte) → List (Outcome Reply)
  | [] => []
  | m :: ms => .ok .done :: .ok (.message m) :: roundReplies ms

/-- How far a call of `pushMessage` has come: nothing done yet; the header read
and found not full; the slot written; or the call over, with its outcome. -/
inductive PushStage where
  | start
  | headerRead (header : RingBufferHeader)
  | slotWritten (header : RingBufferHeader)
  | finished (r : Outcome Unit)
  deriving DecidableEq, Repr

/-- The next step of a call of `pushMessage` on the stream `fm`, cut at its three
accesses to the file: the length test, the read of the header and the test for
a full buffer; the write of the slot; the new tail and count and the write of
the header. -/
def pushStep (message : List Byte) : PushStage → FileManager → PushStage × FileManager
  | .start, fm =>
    if message.length > MAX_MESSAGE_LENGTH then (.finished (.threw .messageTooLong), fm)
    else
      match fm.read sizeofHeader HEADER_OFFSET with
      | (.threw e, fm1) => (.finished (.threw e), fm1)
      | (.undefined u, fm1) => (.finished (.undefined u), fm1)
      | (.ok hb, fm1) =>
        if (decodeHeader hb).count ≥ (decodeHeader hb).capacity then
          (.finished (.threw .bufferFull), fm1)
        else (.headerRead (decodeHeader hb), fm1)
  | .headerRead header, fm =>
    match fm.write (padSlot message) MAX_MESSAGE_LENGTH
        ((sizeofHeader + header.tail * MAX_MESSAGE_LENGTH) % SIZE_MOD) with
    | (.threw e, fm2) => (.finished (.threw e), fm2)
    | (.undefined u, fm2) => (.finished (.undefined u), fm2)
    | (.ok _, fm2) => (.slotWritten header, fm2)
  | .slotWritten header, fm =>
    if header.capacity = 0 then (.finished (.undefined .divisionByZero), fm)
    else
      let header1 := { header with tail := ((header.tail + 1) % SIZE_MOD) % header.capacity }
      let header2 := { header1 with count := (header1.count + 1) % SIZE_MOD }
      match fm.write (encodeHeader header2) sizeofHeader HEADER_OFFSET with
      | (r, fm3) => (.finished r, fm3)
  | .finished r, fm => (.finished r, fm)

/-- A call of `pushMessage` in progress on a handle of its own: the message, the
stage reached, and the stream of the handle. -/
structure Pusher where
  message : List Byte
  stage : PushStage
  stream : FileManager
  deriving DecidableEq, Repr

/-- One step of a pusher on the file as it is now: the stream sees the current
bytes of the file, and the file has the bytes the step leaves. -/
def Pusher.step (p : Pusher) (file : List Byte) : Pusher × List Byte :=
  ({ p with stage := (pushStep p.message p.stage { p.stream with bytes := file }).1
            stream := (pushStep p.message p.stage { p.stream with bytes := file }).2 },
    (pushStep p.message p.stage { p.stream with bytes := file }).2.bytes)

/-- Two pushers on one file, stepped in the order of a schedule: `true` lets the
first take its next step, `false` the second. -/
def interleave : List Bool → Pusher × Pusher × List Byte → Pusher × Pusher × List Byte
  | [], s => s
  | true :: rest, (a, b, file) => interleave rest ((a.step file).1, b, (a.step file).2)
  | false :: rest, (a, b, file) => interleave rest (a, (b.step file).1, (b.step file).2)

/-- A handle just attached to a file with these bytes, about to push `message`. -/
def Pusher.attached (file : List Byte) (message : List Byte) : Pusher :=
  { message := message
    stage := .start
    stream := { bytes := file, good := true, log := [.read HEADER_OFFSET sizeofHeader] } }

/-- The two pushes of the lost-update scenario, on the file of a fresh queue of
capacity 2, run under a schedule. -/
def twoPushes (schedule : List Bool) : Pusher × Pusher × List Byte :=
  interleave schedule
    (Pusher.attached (freshQueue 2).file_manager_.bytes (ascii "AAAA"),
     Pusher.attached (freshQueue 2).file_manager_.bytes (ascii "BBBB"),
     (freshQueue 2).file_manager_.bytes)

/-- A queue object attached to a file with these bytes whose header can be
read. -/
def attachedTo (file : List Byte) : RingBuffer :=
  { capacity_ := (decodeHeader (file.take sizeofHeader)).capacity
    file_manager_ := { bytes := file, good := true, log := [.read HEADER_OFFSET sizeofHeader] } }

/-! ## The header codec -/

theorem encodeLE_length (w n : Nat) : (encodeLE w n).length = w := by
  induction w generalizing n with
  | zero => rfl
  | succ w ih => simp [encodeLE, ih]

theorem decodeLE_encodeLE (w n : Nat) : decodeLE (encodeLE w n) = n % 256 ^ w := by
  induction w generalizing n with
  | zero => simp [encodeLE, decodeLE, Nat.mod_one]
  | succ w ih =>
    simp only [encodeLE, decodeLE, ih]
    rw [pow_succ, Nat.mul_comm (256 ^ w) 256, Nat.mod_mul]
    simp [Fin.ofNat]

theorem decodeLE_lt (bs : List Byte) : decodeLE bs < 256 ^ bs.length := by
  induction bs with
  | nil => simp [decodeLE]
  | cons b bs ih =>
    simp only [decodeLE, List.length_cons, pow_succ]
    have := b.isLt
    omega

theorem encodeLE_decodeLE (bs : List Byte) : encodeLE bs.length (decodeLE bs) = bs := by
  induction bs with
  | nil => rfl
  | cons b bs ih =>
    have hb := b.isLt
    have h1 : (b.val + 256 * decodeLE bs) % 256 = b.val := by omega
    have h2 : (b.val + 256 * decodeLE bs) / 256 = decodeLE bs := by omega
    simp only [List.length_cons, encodeLE, decodeLE, h1, h2, ih]
    congr 1
    apply Fin.ext
    simp [Fin.ofNat, Nat.mod_eq_of_lt hb]

theorem encodeHeader_length (h : RingBufferHeader) : (encodeHeader h).length = sizeofHeader := by
  simp [encodeHeader, encodeLE_length, sizeofHeader]
  omega

theorem size_mod_eq : SIZE_MOD = 256 ^ W := by
  simp [SIZE_MOD, W]

theorem decodeHeader_encodeHeader (h : RingBufferHeader) (hr : h.Representable) :
    decodeHeader (encodeHeader h) = h := by
  obtain ⟨h1, h2, h3, h4⟩ := hr
  rw [size_mod_eq] at h1 h2 h3 h4
  have e1 : (encodeLE W h.capacity).length = W := encodeLE_length _ _
  have e2 : (encodeLE W h.head).length = W := encodeLE_length _ _
  have e3 : (encodeLE W h.tail).length = W := encodeLE_length _ _
  have e4 : (encodeLE W h.count).length = W := encodeLE_length _ _
  have d1 : ∀ (a b : List Byte), a.length = W → (a ++ b).take W = a := by
    intro a b ha
    rw [List.take_append_of_le_length (by omega), List.take_of_length_le (by omega)]
  have d2 : ∀ (a b : List Byte), a.length = W → (a ++ b).drop W = b := by
    intro a b ha
    rw [← ha]; exact List.drop_left a b
  have d3 : ∀ (a b c : List Byte), a.length = W → b.length = W →
      (a ++ (b ++ c)).drop (2 * W) = c := by
    intro a b c ha hb
    have : 2 * W = (a ++ b).length := by simp [ha, hb]; omega
    rw [this, ← List.append_assoc]; exact List.drop_left _ _
  have d4 : ∀ (a b c d : List Byte), a.length = W → b.length = W → c.length = W →
      (a ++ (b ++ (c ++ d))).drop (3 * W) = d := by
    intro a b c d ha hb hc
    have : 3 * W = (a ++ (b ++ c)).length := by simp [ha, hb, hc]; omega
    have e : a ++ (b ++ (c ++ d)) = (a ++ (b ++ c)) ++ d := by simp
    rw [this, e]; exact List.drop_left _ _
  have t : ∀ (a : List Byte), a.length = W → a.take W = a := by
    intro a ha; exact List.take_of_length_le (by omega)
  cases h with
  | mk cap hd tl cnt =>
    simp only [decodeHeader, encodeHeader] at *
    rw [d1 _ _ e1, d2 _ _ e1, d1 _ _ e2, d3 _ _ _ e1 e2, d1 _ _ e3, d4 _ _ _ _ e1 e2 e3, t _ e4]
    simp only [decodeLE_encodeLE, Nat.mod_eq_of_lt h1, Nat.mod_eq_of_lt h2,
      Nat.mod_eq_of_lt h3, Nat.mod_eq_of_lt h4]

/-! ## Positioned writes -/

theorem writeAt_end (bs d : List Byte) : writeAt bs bs.length d = bs ++ d := by
  simp [writeAt]

theorem writeAt_head (hd hd1 rest : List Byte) (hlen : hd1.length = hd.length) :
    writeAt (hd ++ rest) 0 hd1 = hd1 ++ rest := by
  simp [writeAt, hlen]

theorem writeAt_tail (hd rest d : List Byte) (k : Nat) :
    writeAt (hd ++ rest) (hd.length + k) d = hd ++ writeAt rest k d := by
  simp only [writeAt, List.length_append]
  have h1 : (hd ++ rest).take (hd.length + k) = hd ++ rest.take k := by
    rw [List.take_append]
  have h2 : hd.length + k - (hd.length + rest.length) = k - rest.length := by omega
  have h3 : (hd ++ rest).drop (hd.length + k + d.length) = rest.drop (k + d.length) := by
    rw [Nat.add_assoc, List.drop_append]
  rw [h1, h2, h3, List.append_assoc]

theorem writeAt_length (bs d : List Byte) (p : Nat) (h : p + d.length ≤ bs.length) :
    (writeAt bs p d).length = bs.length := by
  simp [writeAt]
  omega

theorem writeAt_getElem? (bs d : List Byte) (p k : Nat) (h : p + d.length ≤ bs.length) :
    (writeAt bs p d)[k]? = if p ≤ k ∧ k < p + d.length then d[k - p]? else bs[k]? := by
  have hz : p - bs.length = 0 := by omega
  simp only [writeAt, hz, List.replicate_zero, List.nil_append]
  have ht : (bs.take p).length = p := by simp; omega
  by_cases h1 : k < p
  · have hn : ¬ (p ≤ k ∧ k < p + d.length) := by omega
    rw [List.getElem?_append_left (by omega), if_neg hn, List.getElem?_take, if_pos h1]
  · rw [List.getElem?_append_right (by omega), ht]
    by_cases h2 : k < p + d.length
    · have hp : p ≤ k ∧ k < p + d.length := by omega
      rw [List.getElem?_append_left (by omega), if_pos hp]
    · have hn : ¬ (p ≤ k ∧ k < p + d.length) := by omega
      rw [List.getElem?_append_right (by omega), if_neg hn, List.getElem?_drop]
      congr 1
      omega

theorem slotAt_getElem? (slots : List Byte) (i k : Nat) :
    (slotAt slots i)[k]? = if k < MAX_MESSAGE_LENGTH then slots[MAX_MESSAGE_LENGTH * i + k]? else none := by
  simp only [slotAt, List.getElem?_take, List.getElem?_drop]

theorem slotAt_length (slots : List Byte) (i c : Nat) (hlen : slots.length = MAX_MESSAGE_LENGTH * c)
    (hi : i < c) : (slotAt slots i).length = MAX_MESSAGE_LENGTH := by
  simp only [slotAt, List.length_take, List.length_drop, hlen]
  have : MAX_MESSAGE_LENGTH * (i + 1) ≤ MAX_MESSAGE_LENGTH * c := Nat.mul_le_mul_left _ hi
  rw [Nat.mul_add] at this
  omega

theorem slot_bound (i c : Nat) (hi : i < c) :
    MAX_MESSAGE_LENGTH * i + MAX_MESSAGE_LENGTH ≤ MAX_MESSAGE_LENGTH * c := by
  have : MAX_MESSAGE_LENGTH * (i + 1) ≤ MAX_MESSAGE_LENGTH * c := Nat.mul_le_mul_left _ hi
  rw [Nat.mul_add] at this
  omega

theorem slotAt_writeAt_same (slots d : List Byte) (i c : Nat)
    (hlen : slots.length = MAX_MESSAGE_LENGTH * c) (hi : i < c)
    (hd : d.length = MAX_MESSAGE_LENGTH) :
    slotAt (writeAt slots (MAX_MESSAGE_LENGTH * i) d) i = d := by
  have hb := slot_bound i c hi
  apply List.ext_getElem?
  intro k
  rw [slotAt_getElem?, writeAt_getElem? _ _ _ _ (by omega)]
  by_cases hk : k < MAX_MESSAGE_LENGTH
  · have : MAX_MESSAGE_LENGTH * i ≤ MAX_MESSAGE_LENGTH * i + k ∧
        MAX_MESSAGE_LENGTH * i + k < MAX_MESSAGE_LENGTH * i + d.length := by omega
    simp only [hk, this, if_true, and_self]
    congr 1
    omega
  · simp only [hk, if_false]
    rw [List.getElem?_eq_none (by omega)]

theorem slotAt_writeAt_other (slots d : List Byte) (i j c : Nat)
    (hlen : slots.length = MAX_MESSAGE_LENGTH * c) (hi : i < c) (hij : i ≠ j)
    (hd : d.length = MAX_MESSAGE_LENGTH) :
    slotAt (writeAt slots (MAX_MESSAGE_LENGTH * i) d) j = slotAt slots j := by
  have hb := slot_bound i c hi
  apply List.ext_getElem?
  intro k
  rw [slotAt_getElem?, slotAt_getElem?, writeAt_getElem? _ _ _ _ (by omega)]
  by_cases hk : k < MAX_MESSAGE_LENGTH
  · have hne : ¬ (MAX_MESSAGE_LENGTH * i ≤ MAX_MESSAGE_LENGTH * j + k ∧
        MAX_MESSAGE_LENGTH * j + k < MAX_MESSAGE_LENGTH * i + d.length) := by
      rcases Nat.lt_or_gt_of_ne hij with h | h
      · have := slot_bound i j h
        omega
      · have := slot_bound j i h
        omega
    simp only [hk, hne, if_true, if_false]
  · simp only [hk, if_false]

/-! ## Files in canonical form -/

theorem Rep.readable {c : Nat} {rb : RingBuffer} {h : RingBufferHeader} {slots : List Byte}
    (hr : Rep c rb h slots) : Readable rb := by
  refine ⟨hr.good, ?_⟩
  rw [hr.bytes, List.length_append, encodeHeader_length]
  omega

theorem Rep.headerOf_eq {c : Nat} {rb : RingBuffer} {h : RingBufferHeader} {slots : List Byte}
    (hr : Rep c rb h slots) : headerOf rb = h := by
  unfold headerOf
  rw [hr.bytes, List.take_append_of_le_length (by rw [encodeHeader_length]),
    List.take_of_length_le (by rw [encodeHeader_length]), decodeHeader_encodeHeader h hr.repr]

theorem Rep.slotsOf_eq {c : Nat} {rb : RingBuffer} {h : RingBufferHeader} {slots : List Byte}
    (hr : Rep c rb h slots) : slotsOf rb = slots := by
  unfold slotsOf
  rw [hr.bytes, ← encodeHeader_length h]
  exact List.drop_left _ _

theorem read_header_of_readable (rb : RingBuffer) (hr : Readable rb) :
    rb.file_manager_.read sizeofHeader HEADER_OFFSET =
      (.ok (rb.file_manager_.bytes.take sizeofHeader),
        rb.file_manager_.logged (.read HEADER_OFFSET sizeofHeader)) := by
  obtain ⟨hg, hl⟩ := hr
  have hc : rb.file_manager_.good = true ∧
      HEADER_OFFSET + sizeofHeader ≤ rb.file_manager_.bytes.length := by
    refine ⟨hg, ?_⟩
    simp only [HEADER_OFFSET]
    omega
  unfold FileManager.read
  rw [if_pos hc]
  simp [HEADER_OFFSET, FileManager.logged]

theorem write_of_good (fm : FileManager) (data : List Byte) (size pos : Nat)
    (hg : fm.good = true) :
    fm.write data size pos =
      (.ok (), { bytes := writeAt fm.bytes pos (data.take size), good := true,
                 log := fm.log ++ [.write pos size] }) := by
  unfold FileManager.write
  rw [if_pos hg]
  simp [hg]

theorem padSlot_length (m : List Byte) (hm : m.length ≤ MAX_MESSAGE_LENGTH) :
    (padSlot m).length = MAX_MESSAGE_LENGTH := by
  simp [padSlot]
  omega

theorem slot_pos (c i : Nat) (hf : Fits c) (hi : i < c) :
    (sizeofHeader + i * MAX_MESSAGE_LENGTH) % SIZE_MOD = sizeofHeader + MAX_MESSAGE_LENGTH * i := by
  have hb := slot_bound i c hi
  unfold Fits at hf
  rw [Nat.mul_comm i, Nat.mod_eq_of_lt (by omega)]

/-! ## The calls on a file in canonical form -/

theorem push_too_long (rb : RingBuffer) (m : List Byte) (hm : m.length > MAX_MESSAGE_LENGTH) :
    rb.pushMessage m = (.threw .messageTooLong, rb) := by
  unfold RingBuffer.pushMessage
  rw [if_pos hm]

theorem push_full_of_readable (rb : RingBuffer) (m : List Byte) (hr : Readable rb)
    (hm : m.length ≤ MAX_MESSAGE_LENGTH)
    (hf : (headerOf rb).count ≥ (headerOf rb).capacity) :
    rb.pushMessage m = (.threw .bufferFull,
      { rb with file_manager_ := rb.file_manager_.logged (.read HEADER_OFFSET sizeofHeader) }) := by
  unfold RingBuffer.pushMessage
  rw [if_neg (by omega), read_header_of_readable rb hr]
  simp only []
  unfold headerOf at hf
  rw [if_pos hf]

theorem pop_empty_of_readable (rb : RingBuffer) (hr : Readable rb)
    (he : (headerOf rb).count = 0) :
    rb.popMessage = (.threw .bufferEmpty,
      { rb with file_manager_ := rb.file_manager_.logged (.read HEADER_OFFSET sizeofHeader) }) := by
  unfold RingBuffer.popMessage
  rw [read_header_of_readable rb hr]
  simp only []
  unfold headerOf at he
  rw [if_pos he]

theorem isEmpty_of_readable (rb : RingBuffer) (hr : Readable rb) :
    rb.isEmpty = (.ok (decide ((headerOf rb).count = 0)),
      { rb with file_manager_ := rb.file_manager_.logged (.read HEADER_OFFSET sizeofHeader) }) := by
  unfold RingBuffer.isEmpty
  rw [read_header_of_readable rb hr]
  rfl

theorem isFull_of_readable (rb : RingBuffer) (hr : Readable rb) :
    rb.isFull = (.ok (decide ((headerOf rb).count = (headerOf rb).capacity)),
      { rb with file_manager_ := rb.file_manager_.logged (.read HEADER_OFFSET sizeofHeader) }) := by
  unfold RingBuffer.isFull
  rw [read_header_of_readable rb hr]
  rfl

theorem push_of_rep {c : Nat} {rb : RingBuffer} {h : RingBufferHeader} {slots : List Byte}
    (hr : Rep c rb h slots) (m : List Byte) (hm : m.length ≤ MAX_MESSAGE_LENGTH)
    (hc : h.count < c) (ht : h.tail < c) :
    rb.pushMessage m = (.ok (),
      { capacity_ := rb.capacity_
        file_manager_ :=
          { bytes := encodeHeader h.pushed ++
              writeAt slots (MAX_MESSAGE_LENGTH * h.tail) (padSlot m)
            good := true
            log := rb.file_manager_.log ++
              [.read HEADER_OFFSET sizeofHeader,
               .write (sizeofHeader + MAX_MESSAGE_LENGTH * h.tail) MAX_MESSAGE_LENGTH,
               .write HEADER_OFFSET sizeofHeader] } }) := by
  have hcap := hr.cap
  have hro := hr.headerOf_eq
  unfold headerOf at hro
  obtain ⟨r1, r2, r3, r4⟩ := hr.repr
  unfold RingBuffer.pushMessage
  rw [if_neg (by omega), read_header_of_readable rb hr.readable]
  simp only [hro]
  rw [if_neg (by omega), slot_pos c h.tail hr.fits ht]
  rw [write_of_good _ _ _ _ (by simp [FileManager.logged, hr.good])]
  simp only []
  rw [if_neg (by omega)]
  rw [write_of_good _ _ _ _ rfl]
  have hp : (padSlot m).take MAX_MESSAGE_LENGTH = padSlot m :=
    List.take_of_length_le (by rw [padSlot_length m hm])
  have e1 : (h.tail + 1) % SIZE_MOD = h.tail + 1 := Nat.mod_eq_of_lt (by omega)
  have e2 : (h.count + 1) % SIZE_MOD = h.count + 1 := Nat.mod_eq_of_lt (by omega)
  have hw : writeAt rb.file_manager_.bytes (sizeofHeader + MAX_MESSAGE_LENGTH * h.tail) (padSlot m)
      = encodeHeader h ++ writeAt slots (MAX_MESSAGE_LENGTH * h.tail) (padSlot m) := by
    rw [hr.bytes, ← encodeHeader_length h, writeAt_tail]
  simp only [hp, e1, e2, FileManager.logged, hw, HEADER_OFFSET]
  rw [List.take_of_length_le (by rw [encodeHeader_length]),
    writeAt_head _ _ _ (by rw [encodeHeader_length, encodeHeader_length])]
  simp [RingBufferHeader.pushed]

theorem read_of_good (fm : FileManager) (size pos : Nat) (hg : fm.good = true)
    (hl : pos + size ≤ fm.bytes.length) :
    fm.read size pos = (.ok ((fm.bytes.drop pos).take size),
      { bytes := fm.bytes, good := true, log := fm.log ++ [.read pos size] }) := by
  unfold FileManager.read
  rw [if_pos ⟨hg, hl⟩]
  simp [hg]

theorem pop_of_rep {c : Nat} {rb : RingBuffer} {h : RingBufferHeader} {slots : List Byte}
    (hr : Rep c rb h slots) (hc : h.count ≠ 0) (hh : h.head < c) :
    rb.popMessage = (popOutcome (slotAt slots h.head),
      { capacity_ := rb.capacity_
        file_manager_ :=
          { bytes := encodeHeader h.popped ++
              writeAt slots (MAX_MESSAGE_LENGTH * h.head) (List.replicate MAX_MESSAGE_LENGTH 0)
            good := true
            log := rb.file_manager_.log ++
              [.read HEADER_OFFSET sizeofHeader,
               .read (sizeofHeader + MAX_MESSAGE_LENGTH * h.head) MAX_MESSAGE_LENGTH,
               .write (sizeofHeader + MAX_MESSAGE_LENGTH * h.head) MAX_MESSAGE_LENGTH,
               .write HEADER_OFFSET sizeofHeader] } }) := by
  have hcap := hr.cap
  have hro := hr.headerOf_eq
  unfold headerOf at hro
  obtain ⟨r1, r2, r3, r4⟩ := hr.repr
  have hb := slot_bound h.head c hh
  have hlen : rb.file_manager_.bytes.length = sizeofHeader + MAX_MESSAGE_LENGTH * c := by
    rw [hr.bytes, List.length_append, encodeHeader_length, hr.len]
  unfold RingBuffer.popMessage
  rw [read_header_of_readable rb hr.readable]
  simp only [hro]
  rw [if_neg hc, slot_pos c h.head hr.fits hh]
  rw [read_of_good _ _ _ (by simp [FileManager.logged, hr.good])
    (by simp only [FileManager.logged]; omega)]
  simp only []
  rw [write_of_good _ _ _ _ rfl]
  simp only []
  rw [if_neg (by omega)]
  rw [write_of_good _ _ _ _ rfl]
  have e1 : (h.head + 1) % SIZE_MOD = h.head + 1 := Nat.mod_eq_of_lt (by omega)
  have e2 : (h.count - 1) % SIZE_MOD = h.count - 1 := Nat.mod_eq_of_lt (by omega)
  have hz : (List.replicate MAX_MESSAGE_LENGTH (0 : Byte)).take MAX_MESSAGE_LENGTH =
      List.replicate MAX_MESSAGE_LENGTH 0 := List.take_of_length_le (by simp)
  have hs : (rb.file_manager_.bytes.drop (sizeofHeader + MAX_MESSAGE_LENGTH * h.head)).take
      MAX_MESSAGE_LENGTH = slotAt slots h.head := by
    rw [hr.bytes, ← encodeHeader_length h, ← List.drop_drop, List.drop_left]
    rfl
  have hw : writeAt rb.file_manager_.bytes (sizeofHeader + MAX_MESSAGE_LENGTH * h.head)
      (List.replicate MAX_MESSAGE_LENGTH 0)
      = encodeHeader h ++ writeAt slots (MAX_MESSAGE_LENGTH * h.head)
          (List.replicate MAX_MESSAGE_LENGTH 0) := by
    rw [hr.bytes, ← encodeHeader_length h, writeAt_tail]
  simp only [hz, e1, e2, FileManager.logged, hw, hs, HEADER_OFFSET]
  rw [List.take_of_length_le (by rw [encodeHeader_length]),
    writeAt_head _ _ _ (by rw [encodeHeader_length, encodeHeader_length])]
  unfold popOutcome
  cases cstring (slotAt slots h.head) <;> simp [RingBufferHeader.popped]

/-! ## Creation -/

theorem writeEmptySlots_good (c n i : Nat) (fm : FileManager) (hg : fm.good = true)
    (hf : Fits c) (hic : i + n ≤ c)
    (hb : fm.bytes.length = sizeofHeader + MAX_MESSAGE_LENGTH * i) :
    writeEmptySlots n i fm = (.ok (),
      { bytes := fm.bytes ++ List.replicate (MAX_MESSAGE_LENGTH * n) 0
        good := true
        log := fm.log ++ slotWrites i n }) := by
  induction n generalizing i fm with
  | zero =>
    cases fm
    simp_all [writeEmptySlots, slotWrites]
  | succ n ih =>
    have hz : (List.replicate MAX_MESSAGE_LENGTH (0 : Byte)).take MAX_MESSAGE_LENGTH =
        List.replicate MAX_MESSAGE_LENGTH 0 := List.take_of_length_le (by simp)
    have hw : writeAt fm.bytes (sizeofHeader + MAX_MESSAGE_LENGTH * i)
        (List.replicate MAX_MESSAGE_LENGTH 0) =
        fm.bytes ++ List.replicate MAX_MESSAGE_LENGTH 0 := by
      rw [← hb]; exact writeAt_end _ _
    unfold writeEmptySlots
    rw [write_of_good _ _ _ _ hg, slot_pos c i hf (by omega)]
    simp only [hz, hw]
    rw [ih (i + 1) _ rfl (by omega)]
    · simp only [slotWrites, List.range'_succ, List.map_cons, List.append_assoc,
        List.singleton_append, Nat.mul_add, Nat.mul_one, ← List.replicate_add]
      rw [Nat.add_comm (MAX_MESSAGE_LENGTH * n)]
    · simp only [List.length_append, List.length_replicate, hb, Nat.mul_add, Nat.mul_one]
      omega

theorem new_eq_freshQueue (path : PathState) (c : Nat) (hp : path ≠ .unopenable)
    (hf : Fits c) : RingBuffer.new path c true = .ok (freshQueue c) := by
  have ho : FileManager.open path true = .ok { bytes := [], good := true, log := [] } := by
    cases path with
    | unopenable => exact absurd rfl hp
    | absent => rfl
    | present bs => rfl
  unfold RingBuffer.new
  rw [ho]
  simp only [if_true, RingBuffer.initializeBuffer]
  rw [write_of_good _ _ _ _ rfl]
  simp only []
  rw [writeEmptySlots_good c c 0 _ rfl hf (by omega)]
  · simp only [freshQueue, HEADER_OFFSET]
    rw [List.take_of_length_le (by rw [encodeHeader_length])]
    simp [writeAt]
  · simp only [HEADER_OFFSET]
    rw [List.take_of_length_le (by rw [encodeHeader_length])]
    simp [writeAt, encodeHeader_length]

theorem freshQueue_rep (c : Nat) (hf : Fits c) :
    Rep c (freshQueue c) { capacity := c, head := 0, tail := 0, count := 0 }
      (List.replicate (MAX_MESSAGE_LENGTH * c) 0) := by
  have hc : c < SIZE_MOD := by
    unfold Fits at hf
    have : c ≤ MAX_MESSAGE_LENGTH * c := Nat.le_mul_of_pos_left c (by decide)
    omega
  have hz : 0 < SIZE_MOD := by omega
  exact ⟨rfl, rfl, by simp, rfl, hf, hc, hz, hz, hz⟩

/-! ## Queries and rejected calls -/

/-- C4: on a file whose header can be read, `isFull()` returns true exactly when
`count == capacity` and `isEmpty()` returns true exactly when `count == 0`; when
`0 < count < capacity` both return false. -/
theorem isFull_isEmpty_by_count (rb : RingBuffer) (hr : Readable rb) :
    (∃ b, rb.isFull.1 = .ok b ∧ (b = true ↔ (headerOf rb).count = (headerOf rb).capacity)) ∧
    (∃ b, rb.isEmpty.1 = .ok b ∧ (b = true ↔ (headerOf rb).count = 0)) ∧
    (0 < (headerOf rb).count → (headerOf rb).count < (headerOf rb).capacity →
      rb.isFull.1 = .ok false ∧ rb.isEmpty.1 = .ok false) := by
  rw [isFull_of_readable rb hr, isEmpty_of_readable rb hr]
  refine ⟨⟨_, rfl, by simp⟩, ⟨_, rfl, by simp⟩, ?_⟩
  intro h1 h2
  constructor
  · simp only [Outcome.ok.injEq, decide_eq_false_iff_not]; omega
  · simp only [Outcome.ok.injEq, decide_eq_false_iff_not]; omega

set_option maxRecDepth 1000000 in
/-- The scenario of C4 on a queue of capacity 3: after one push and after two
pushes neither query holds, after three `isFull()` holds and `isEmpty()` does
not. -/
theorem isFull_isEmpty_by_count_witness :
    (Readable ((freshQueue 3).run [.pushMessage (ascii "First")]).2 ∧
      ((freshQueue 3).run [.pushMessage (ascii "First")]).2.isFull.1 = .ok false ∧
      ((freshQueue 3).run [.pushMessage (ascii "First")]).2.isEmpty.1 = .ok false) ∧
    (((freshQueue 3).run [.pushMessage (ascii "First"), .pushMessage (ascii "Second")]).2.isFull.1
        = .ok false ∧
      ((freshQueue 3).run [.pushMessage (ascii "First"), .pushMessage (ascii "Second")]).2.isEmpty.1
        = .ok false) ∧
    (((freshQueue 3).run [.pushMessage (ascii "First"), .pushMessage (ascii "Second"),
        .pushMessage (ascii "Third")]).2.isFull.1 = .ok true ∧
      ((freshQueue 3).run [.pushMessage (ascii "First"), .pushMessage (ascii "Second"),
        .pushMessage (ascii "Third")]).2.isEmpty.1 = .ok false) :=
  ⟨⟨by decide,
      (isFull_isEmpty_by_count _ (by decide)).2.2 (by decide) (by decide)⟩,
    (isFull_isEmpty_by_count _ (by decide)).2.2 (by decide) (by decide),
    by decide, by decide⟩

/-- C5: a message longer than `MAX_MESSAGE_LENGTH` is rejected with "Message too
long" whatever the state of the queue (the header is not even read), and the
object and its file are exactly as before. -/
theorem pushMessage_too_long (rb : RingBuffer) (m : List Byte)
    (hm : m.length > MAX_MESSAGE_LENGTH) :
    (rb.pushMessage m).1 = .threw .messageTooLong ∧
    (rb.pushMessage m).2 = rb ∧
    (rb.pushMessage m).2.file_manager_.bytes = rb.file_manager_.bytes ∧
    headerOf (rb.pushMessage m).2 = headerOf rb ∧
    slotsOf (rb.pushMessage m).2 = slotsOf rb := by
  rw [push_too_long rb m hm]
  exact ⟨rfl, rfl, rfl, rfl, rfl⟩

set_option maxRecDepth 1000000 in
/-- C5 on a full queue of capacity 1: the 21-byte message is reported as too
long, not as hitting a full buffer, and the file keeps its bytes. -/
theorem pushMessage_too_long_witness :
    (List.replicate 21 (97 : Byte)).length > MAX_MESSAGE_LENGTH ∧
    (headerOf ((freshQueue 1).pushMessage (ascii "Test")).2).count =
      (headerOf ((freshQueue 1).pushMessage (ascii "Test")).2).capacity ∧
    ((((freshQueue 1).pushMessage (ascii "Test")).2.pushMessage (List.replicate 21 97)).1 =
        .threw .messageTooLong ∧
      (((freshQueue 1).pushMessage (ascii "Test")).2.pushMessage (List.replicate 21 97)).2 =
        ((freshQueue 1).pushMessage (ascii "Test")).2 ∧
      (((freshQueue 1).pushMessage (ascii "Test")).2.pushMessage
          (List.replicate 21 97)).2.file_manager_.bytes =
        ((freshQueue 1).pushMessage (ascii "Test")).2.file_manager_.bytes ∧
      headerOf (((freshQueue 1).pushMessage (ascii "Test")).2.pushMessage
          (List.replicate 21 97)).2 = headerOf ((freshQueue 1).pushMessage (ascii "Test")).2 ∧
      slotsOf (((freshQueue 1).pushMessage (ascii "Test")).2.pushMessage
          (List.replicate 21 97)).2 = slotsOf ((freshQueue 1).pushMessage (ascii "Test")).2) :=
  ⟨by decide, by decide, pushMessage_too_long _ _ (by decide)⟩

/-- C6: on a file whose header has `count == capacity`, a push of a message of at
most `MAX_MESSAGE_LENGTH` bytes throws "Buffer full"; the file keeps every byte
(header and slots), the stream stays good, and the queue is still full. -/
theorem pushMessage_full (rb : RingBuffer) (m : List Byte) (hr : Readable rb)
    (hfull : (headerOf rb).count = (headerOf rb).capacity)
    (hm : m.length ≤ MAX_MESSAGE_LENGTH) :
    (rb.pushMessage m).1 = .threw .bufferFull ∧
    (rb.pushMessage m).2.file_manager_.bytes = rb.file_manager_.bytes ∧
    headerOf (rb.pushMessage m).2 = headerOf rb ∧
    slotsOf (rb.pushMessage m).2 = slotsOf rb ∧
    (rb.pushMessage m).2.file_manager_.good = true ∧
    (rb.pushMessage m).2.capacity_ = rb.capacity_ ∧
    (rb.pushMessage m).2.isFull.1 = .ok true := by
  have hp := push_full_of_readable rb m hr hm (by omega)
  have hr2 : Readable (rb.pushMessage m).2 := by rw [hp]; exact hr
  have hh : headerOf (rb.pushMessage m).2 = headerOf rb := by rw [hp]; rfl
  refine ⟨by rw [hp], by rw [hp]; rfl, hh, by rw [hp]; rfl, by rw [hp]; exact hr.1,
    by rw [hp], ?_⟩
  rw [isFull_of_readable _ hr2, hh]
  simp [hfull]

set_option maxRecDepth 1000000 in
/-- The scenario of C6 on a queue of capacity 1: the push of "Test" goes
through, the push of "Another" throws "Buffer full" and changes nothing, and
the pop that follows returns "Test". -/
theorem pushMessage_full_witness :
    ((freshQueue 1).pushMessage (ascii "Test")).1 = .ok () ∧
    (((freshQueue 1).pushMessage (ascii "Test")).2.pushMessage (ascii "Another")).1 =
      .threw .bufferFull ∧
    (((freshQueue 1).pushMessage (ascii "Test")).2.pushMessage
        (ascii "Another")).2.file_manager_.bytes =
      ((freshQueue 1).pushMessage (ascii "Test")).2.file_manager_.bytes ∧
    (((freshQueue 1).pushMessage (ascii "Test")).2.pushMessage (ascii "Another")).2.popMessage.1 =
      .ok (ascii "Test") :=
  ⟨by decide,
    (pushMessage_full ((freshQueue 1).pushMessage (ascii "Test")).2 (ascii "Another")
      (by decide) (by decide) (by decide)).1,
    (pushMessage_full ((freshQueue 1).pushMessage (ascii "Test")).2 (ascii "Another")
      (by decide) (by decide) (by decide)).2.1,
    by decide⟩

/-- C7: on a file whose header has `count == 0`, a pop throws "Buffer empty",
returns no message, and the file keeps every byte (header and slots). -/
theorem popMessage_empty (rb : RingBuffer) (hr : Readable rb)
    (hempty : (headerOf rb).count = 0) :
    rb.popMessage.1 = .threw .bufferEmpty ∧
    rb.popMessage.2.file_manager_.bytes = rb.file_manager_.bytes ∧
    headerOf rb.popMessage.2 = headerOf rb ∧
    slotsOf rb.popMessage.2 = slotsOf rb ∧
    rb.popMessage.2.file_manager_.good = true ∧
    rb.popMessage.2.capacity_ = rb.capacity_ := by
  have hp := pop_empty_of_readable rb hr hempty
  exact ⟨by rw [hp], by rw [hp]; rfl, by rw [hp]; rfl, by rw [hp]; rfl,
    by rw [hp]; exact hr.1, by rw [hp]⟩

set_option maxRecDepth 1000000 in
/-- The scenario of C7 on a queue of capacity 2: a pop on the fresh queue throws
"Buffer empty", and so does the pop after one push and one pop. -/
theorem popMessage_empty_witness :
    ((freshQueue 2).popMessage.1 = .threw .bufferEmpty ∧
      (freshQueue 2).popMessage.2.file_manager_.bytes = (freshQueue 2).file_manager_.bytes) ∧
    (((freshQueue 2).run [.pushMessage (ascii "Test"), .popMessage]).1 =
        [.ok .done, .ok (.message (ascii "Test"))] ∧
      ((freshQueue 2).run [.pushMessage (ascii "Test"), .popMessage]).2.popMessage.1 =
        .threw .bufferEmpty ∧
      headerOf ((freshQueue 2).run [.pushMessage (ascii "Test"), .popMessage]).2.popMessage.2 =
        headerOf ((freshQueue 2).run [.pushMessage (ascii "Test"), .popMessage]).2) :=
  ⟨⟨(popMessage_empty (freshQueue 2) (by decide) (by decide)).1,
      (popMessage_empty (freshQueue 2) (by decide) (by decide)).2.1⟩,
    by decide,
    (popMessage_empty ((freshQueue 2).run [.pushMessage (ascii "Test"), .popMessage]).2
      (by decide) (by decide)).1,
    (popMessage_empty ((freshQueue 2).run [.pushMessage (ascii "Test"), .popMessage]).2
      (by decide) (by decide)).2.2.1⟩

/-! ## Creation, claim by claim -/

theorem slotAt_zeros (c i : Nat) (hi : i < c) :
    slotAt (List.replicate (MAX_MESSAGE_LENGTH * c) (0 : Byte)) i =
      List.replicate MAX_MESSAGE_LENGTH 0 := by
  have hb := slot_bound i c hi
  simp only [slotAt, List.drop_replicate, List.take_replicate]
  congr 1
  omega

theorem freshQueue_slot (c i : Nat) (hi : i < c) :
    ((freshQueue c).file_manager_.bytes.drop (4 * W + MAX_MESSAGE_LENGTH * i)).take
      MAX_MESSAGE_LENGTH = List.replicate MAX_MESSAGE_LENGTH 0 := by
  have h4 : 4 * W = (encodeHeader { capacity := c, head := 0, tail := 0, count := 0 }).length := by
    rw [encodeHeader_length]; rfl
  simp only [freshQueue]
  rw [h4, ← List.drop_drop, List.drop_left]
  exact slotAt_zeros c i hi

/-- C9 as stated fails: creating a queue of capacity 0 on a path where a file
can be made throws nothing; the constructor returns a queue object, over a file
of the 32 header bytes. -/
theorem new_zero_capacity_throws_nothing :
    RingBuffer.new PathState.absent 0 true = Outcome.ok (freshQueue 0) ∧
    RingBuffer.new PathState.absent 0 true ≠ Outcome.threw Error.openFailed ∧
    (freshQueue 0).file_manager_.bytes.length = 32 := by
  refine ⟨by decide, by decide, by decide⟩

/-- C9, amended: creating a queue of capacity 0 on a path that can be opened
succeeds; the file is the header `{0, 0, 0, 0}` with no slot after it, and the
queue is both empty and full. -/
theorem new_zero_capacity (path : PathState) (hp : path ≠ .unopenable) :
    ∃ rb, RingBuffer.new path 0 true = .ok rb ∧
      rb.capacity_ = 0 ∧
      rb.file_manager_.bytes =
        encodeHeader { capacity := 0, head := 0, tail := 0, count := 0 } ∧
      rb.file_manager_.bytes.length = sizeofHeader ∧
      rb.isEmpty.1 = .ok true ∧ rb.isFull.1 = .ok true := by
  refine ⟨freshQueue 0, new_eq_freshQueue path 0 hp (by decide), rfl, by decide, by decide,
    by decide, by decide⟩

/-- C9, amended, on a path where no file is yet. -/
theorem new_zero_capacity_witness :
    PathState.absent ≠ PathState.unopenable ∧
    ∃ rb, RingBuffer.new PathState.absent 0 true = .ok rb ∧
      rb.capacity_ = 0 ∧
      rb.file_manager_.bytes =
        encodeHeader { capacity := 0, head := 0, tail := 0, count := 0 } ∧
      rb.file_manager_.bytes.length = sizeofHeader ∧
      rb.isEmpty.1 = .ok true ∧ rb.isFull.1 = .ok true :=
  ⟨by decide, new_zero_capacity PathState.absent (by decide)⟩

/-- C10: creating a queue of capacity `c` on a path that can be opened leaves a
file of exactly `4 * W + 20 * c` bytes: the header `{c, 0, 0, 0}`, then `c` slots
of 20 zero bytes, slot `i` at offset `4 * W + 20 * i`; the queue is empty, and
not full when `c >= 1`.  (The capacity is one whose file fits the `size_t`
offsets.) -/
theorem new_writes_empty_queue (path : PathState) (c : Nat) (hp : path ≠ .unopenable)
    (hf : Fits c) :
    ∃ rb, RingBuffer.new path c true = .ok rb ∧
      rb.capacity_ = c ∧
      rb.file_manager_.bytes.length = 4 * W + MAX_MESSAGE_LENGTH * c ∧
      rb.file_manager_.bytes =
        encodeHeader { capacity := c, head := 0, tail := 0, count := 0 } ++
          List.replicate (MAX_MESSAGE_LENGTH * c) 0 ∧
      rb.file_manager_.bytes.take (4 * W) =
        encodeHeader { capacity := c, head := 0, tail := 0, count := 0 } ∧
      headerOf rb = { capacity := c, head := 0, tail := 0, count := 0 } ∧
      (∀ i, i < c →
        (rb.file_manager_.bytes.drop (4 * W + MAX_MESSAGE_LENGTH * i)).take MAX_MESSAGE_LENGTH =
          List.replicate MAX_MESSAGE_LENGTH 0) ∧
      rb.isEmpty.1 = .ok true ∧
      (1 ≤ c → rb.isFull.1 = .ok false) := by
  have hrep := freshQueue_rep c hf
  have hh := hrep.headerOf_eq
  have h4 : 4 * W = (encodeHeader { capacity := c, head := 0, tail := 0, count := 0 }).length := by
    rw [encodeHeader_length]; rfl
  refine ⟨freshQueue c, new_eq_freshQueue path c hp hf, rfl, ?_, rfl, ?_, hh, ?_, ?_, ?_⟩
  · simp only [freshQueue, List.length_append, encodeHeader_length, List.length_replicate]
    rfl
  · simp only [freshQueue]
    rw [h4, List.take_left]
  · intro i hi
    exact freshQueue_slot c i hi
  · rw [isEmpty_of_readable _ hrep.readable, hh]
    rfl
  · intro hc
    rw [isFull_of_readable _ hrep.readable, hh]
    simp only [Outcome.ok.injEq, decide_eq_false_iff_not]
    omega

/-- C10 at capacity 3 on a path where no file is yet: 92 bytes, the header
`{3, 0, 0, 0}` and three slots of zero bytes. -/
theorem new_writes_empty_queue_witness :
    PathState.absent ≠ PathState.unopenable ∧ Fits 3 ∧
    ∃ rb, RingBuffer.new PathState.absent 3 true = .ok rb ∧
      rb.capacity_ = 3 ∧
      rb.file_manager_.bytes.length = 4 * W + MAX_MESSAGE_LENGTH * 3 ∧
      rb.file_manager_.bytes =
        encodeHeader { capacity := 3, head := 0, tail := 0, count := 0 } ++
          List.replicate (MAX_MESSAGE_LENGTH * 3) 0 ∧
      rb.file_manager_.bytes.take (4 * W) =
        encodeHeader { capacity := 3, head := 0, tail := 0, count := 0 } ∧
      headerOf rb = { capacity := 3, head := 0, tail := 0, count := 0 } ∧
      (∀ i, i < 3 →
        (rb.file_manager_.bytes.drop (4 * W + MAX_MESSAGE_LENGTH * i)).take MAX_MESSAGE_LENGTH =
          List.replicate MAX_MESSAGE_LENGTH 0) ∧
      rb.isEmpty.1 = .ok true ∧
      (1 ≤ 3 → rb.isFull.1 = .ok false) :=
  ⟨by decide, by decide, new_writes_empty_queue PathState.absent 3 (by decide) (by decide)⟩

/-! ## The ring as a queue -/

theorem ring_index_inj (c a i j : Nat) (hi : i < c) (hj : j < c)
    (h : (a + i) % c = (a + j) % c) : i = j := by
  have h1 : i ≡ j [MOD c] := Nat.ModEq.add_left_cancel' a h
  have h2 : i % c = j % c := h1
  rwa [Nat.mod_eq_of_lt hi, Nat.mod_eq_of_lt hj] at h2

theorem ring_index_succ (c a i : Nat) : ((a + 1) % c + i) % c = (a + (i + 1)) % c := by
  rw [Nat.mod_add_mod]
  congr 1
  omega

theorem cstring_padSlot (m : List Byte) (hm : Clean m) : cstring (padSlot m) = some m := by
  obtain ⟨hl, hz⟩ := hm
  have hd : (List.replicate MAX_MESSAGE_LENGTH (0 : Byte)).drop m.length =
      0 :: List.replicate (MAX_MESSAGE_LENGTH - m.length - 1) 0 := by
    rw [List.drop_replicate]
    have : MAX_MESSAGE_LENGTH - m.length = (MAX_MESSAGE_LENGTH - m.length - 1) + 1 := by omega
    rw [this, List.replicate_succ]
    simp
  unfold cstring padSlot
  rw [hd, if_pos (by simp)]
  congr 1
  rw [List.takeWhile_append_of_pos]
  · simp
  · intro b hb
    have : b ≠ 0 := fun h0 => hz (h0 ▸ hb)
    simpa using this

theorem popOutcome_padSlot (m : List Byte) (hm : Clean m) :
    popOutcome (padSlot m) = .ok m := by
  unfold popOutcome
  rw [cstring_padSlot m hm]

theorem cstring_full_slot (m : List Byte) (hl : m.length = MAX_MESSAGE_LENGTH)
    (hz : (0 : Byte) ∉ m) : cstring (padSlot m) = none := by
  have hd : (List.replicate MAX_MESSAGE_LENGTH (0 : Byte)).drop m.length = [] := by
    rw [hl, List.drop_replicate]; simp
  unfold cstring padSlot
  rw [hd, List.append_nil, if_neg hz]

theorem freshQueue_holds (c : Nat) (hc : 1 ≤ c) (hf : Fits c) : Holds c [] (freshQueue c) := by
  refine ⟨_, _, freshQueue_rep c hf, ⟨by simp, by simp; omega, by simp; omega, ?_⟩, rfl,
    by simp, by simp, ?_⟩
  · simp only [Nat.add_zero]
    exact (Nat.mod_eq_of_lt (by omega)).symm
  · intro j hj _
    exact slotAt_zeros c j hj

theorem Rep.transfer_rep {c : Nat} {rb rb2 : RingBuffer} {h : RingBufferHeader} {slots : List Byte}
    (hr : Rep c rb h slots) (hg : rb2.file_manager_.good = true)
    (hb : rb2.file_manager_.bytes = rb.file_manager_.bytes) : Rep c rb2 h slots :=
  ⟨hg, by rw [hb, hr.bytes], hr.len, hr.cap, hr.fits, hr.repr⟩

theorem Holds.transfer_holds {c : Nat} {q : List (List Byte)} {rb rb2 : RingBuffer}
    (hh : Holds c q rb) (hg : rb2.file_manager_.good = true)
    (hb : rb2.file_manager_.bytes = rb.file_manager_.bytes) : Holds c q rb2 := by
  obtain ⟨h, slots, hr, rest⟩ := hh
  exact ⟨h, slots, hr.transfer_rep hg hb, rest⟩

theorem Fits.capacity_lt {c : Nat} (hf : Fits c) : c < SIZE_MOD := by
  unfold Fits at hf
  have : c ≤ MAX_MESSAGE_LENGTH * c := Nat.le_mul_of_pos_left c (by decide)
  omega

theorem push_holds {c : Nat} {q : List (List Byte)} {rb : RingBuffer} (hh : Holds c q rb)
    (m : List Byte) (hm : m.length ≤ MAX_MESSAGE_LENGTH) (hq : q.length < c) :
    (rb.pushMessage m).1 = .ok () ∧ Holds c (q ++ [m]) (rb.pushMessage m).2 := by
  obtain ⟨h, slots, hr, ⟨i1, i2, i3, i4⟩, hcount, hlens, hocc, hvac⟩ := hh
  have hcap := hr.cap
  have hlt := hr.fits.capacity_lt
  have hpush := push_of_rep hr m hm (by omega) (by omega)
  have hpl := padSlot_length m hm
  have htail : h.tail = (h.head + q.length) % c := by rw [i4, hcount, hcap]
  rw [hpush]
  refine ⟨rfl, h.pushed, _, ⟨rfl, rfl, ?_, hcap, hr.fits, ?_⟩, ⟨?_, ?_, ?_, ?_⟩, ?_, ?_, ?_, ?_⟩
  · rw [writeAt_length _ _ _ (by rw [hpl, hr.len]; exact slot_bound _ _ (by omega)), hr.len]
  · have := Nat.mod_lt (h.tail + 1) (show h.capacity > 0 by omega)
    obtain ⟨r1, r2, r3, r4⟩ := hr.repr
    exact ⟨r1, r2, by simp only [RingBufferHeader.pushed]; omega,
      by simp only [RingBufferHeader.pushed]; omega⟩
  · simp only [RingBufferHeader.pushed]; omega
  · exact i2
  · exact Nat.mod_lt _ (by omega)
  · simp only [RingBufferHeader.pushed]
    rw [i4, Nat.mod_add_mod, Nat.add_assoc]
  · simp only [RingBufferHeader.pushed, List.length_append, List.length_singleton, hcount]
  · intro m1 hm1
    rcases List.mem_append.mp hm1 with h1 | h1
    · exact hlens m1 h1
    · rw [List.mem_singleton.mp h1]; exact hm
  · intro i m1 hi
    simp only [RingBufferHeader.pushed]
    by_cases hiq : i < q.length
    · rw [List.getElem?_append_left hiq] at hi
      have hne : h.tail ≠ (h.head + i) % c := by
        intro he
        rw [htail] at he
        have := ring_index_inj c h.head _ _ (by omega) (by omega) he
        omega
      rw [slotAt_writeAt_other slots _ h.tail _ c hr.len (by omega) hne hpl]
      exact hocc i m1 hi
    · have hlen : i < (q ++ [m]).length := by
        rcases Nat.lt_or_ge i (q ++ [m]).length with h1 | h1
        · exact h1
        · rw [List.getElem?_eq_none h1] at hi; cases hi
      simp only [List.length_append, List.length_singleton] at hlen
      have hiq2 : i = q.length := by omega
      subst hiq2
      rw [List.getElem?_append_right (by omega)] at hi
      simp only [Nat.sub_self, List.getElem?_cons_zero, Option.some.injEq] at hi
      subst hi
      rw [← htail]
      exact slotAt_writeAt_same slots _ h.tail c hr.len (by omega) hpl
  · intro j hj hfree
    simp only [RingBufferHeader.pushed, List.length_append, List.length_singleton] at hfree
    have hne : h.tail ≠ j := by
      rw [htail]
      exact hfree q.length (by omega)
    rw [slotAt_writeAt_other slots _ h.tail j c hr.len (by omega) hne hpl]
    exact hvac j hj (fun i hi => hfree i (by omega))

theorem pop_holds {c : Nat} {m : List Byte} {q : List (List Byte)} {rb : RingBuffer}
    (hh : Holds c (m :: q) rb) :
    rb.popMessage.1 = popOutcome (padSlot m) ∧ Holds c q rb.popMessage.2 := by
  obtain ⟨h, slots, hr, ⟨i1, i2, i3, i4⟩, hcount, hlens, hocc, hvac⟩ := hh
  have hcap := hr.cap
  have hlt := hr.fits.capacity_lt
  simp only [List.length_cons] at hcount hvac
  have hpop := pop_of_rep hr (by omega) (by omega)
  have hzl : (List.replicate MAX_MESSAGE_LENGTH (0 : Byte)).length = MAX_MESSAGE_LENGTH := by simp
  have hhead : (h.head + 0) % c = h.head := by
    rw [Nat.add_zero]; exact Nat.mod_eq_of_lt (by omega)
  have hfirst : slotAt slots h.head = padSlot m := by
    have := hocc 0 m (by simp)
    rwa [hhead] at this
  rw [hpop, hfirst]
  refine ⟨rfl, h.popped, _, ⟨rfl, rfl, ?_, hcap, hr.fits, ?_⟩, ⟨?_, ?_, ?_, ?_⟩, ?_, ?_, ?_, ?_⟩
  · rw [writeAt_length _ _ _ (by rw [hzl, hr.len]; exact slot_bound _ _ (by omega)), hr.len]
  · have := Nat.mod_lt (h.head + 1) (show h.capacity > 0 by omega)
    obtain ⟨r1, r2, r3, r4⟩ := hr.repr
    exact ⟨r1, by simp only [RingBufferHeader.popped]; omega, r3,
      by simp only [RingBufferHeader.popped]; omega⟩
  · simp only [RingBufferHeader.popped]; omega
  · exact Nat.mod_lt _ (by omega)
  · exact i3
  · simp only [RingBufferHeader.popped]
    rw [ring_index_succ, i4]
    congr 2
    omega
  · simp only [RingBufferHeader.popped]; omega
  · intro m1 hm1
    exact hlens m1 (List.mem_cons_of_mem _ hm1)
  · intro i m1 hi
    simp only [RingBufferHeader.popped]
    have hiq : i < q.length := by
      rcases Nat.lt_or_ge i q.length with h1 | h1
      · exact h1
      · rw [List.getElem?_eq_none h1] at hi; cases hi
    rw [hcap, ring_index_succ]
    have hne : h.head ≠ (h.head + (i + 1)) % c := by
      intro he
      have he2 : (h.head + 0) % c = (h.head + (i + 1)) % c := by rw [hhead]; exact he
      have := ring_index_inj c h.head 0 (i + 1) (by omega) (by omega) he2
      omega
    rw [slotAt_writeAt_other slots _ h.head _ c hr.len (by omega) hne hzl]
    exact hocc (i + 1) m1 (by simpa using hi)
  · intro j hj hfree
    simp only [RingBufferHeader.popped, hcap, ring_index_succ] at hfree
    by_cases hjh : h.head = j
    · rw [← hjh]
      exact slotAt_writeAt_same slots _ h.head c hr.len (by omega) hzl
    · rw [slotAt_writeAt_other slots _ h.head j c hr.len (by omega) hjh hzl]
      apply hvac j hj
      intro i hi
      cases i with
      | zero => rw [hhead]; exact hjh
      | succ i => exact hfree i (by omega)

theorem push_full_holds {c : Nat} {q : List (List Byte)} {rb : RingBuffer} (hh : Holds c q rb)
    (m : List Byte) (hm : m.length ≤ MAX_MESSAGE_LENGTH) (hq : q.length ≥ c) :
    (rb.pushMessage m).1 = .threw .bufferFull ∧ Holds c q (rb.pushMessage m).2 := by
  have hh2 := hh
  obtain ⟨h, slots, hr, ⟨i1, i2, i3, i4⟩, hcount, -⟩ := hh2
  have hp := push_full_of_readable rb m hr.readable hm
    (by rw [hr.headerOf_eq, hr.cap]; omega)
  rw [hp]
  exact ⟨rfl, hh.transfer_holds hr.good rfl⟩

theorem pop_empty_holds {c : Nat} {rb : RingBuffer} (hh : Holds c [] rb) :
    rb.popMessage.1 = .threw .bufferEmpty ∧ Holds c [] rb.popMessage.2 := by
  have hh2 := hh
  obtain ⟨h, slots, hr, -, hcount, -⟩ := hh2
  have hp := pop_empty_of_readable rb hr.readable (by rw [hr.headerOf_eq]; exact hcount)
  rw [hp]
  exact ⟨rfl, hh.transfer_holds hr.good rfl⟩

theorem isEmpty_holds {c : Nat} {q : List (List Byte)} {rb : RingBuffer} (hh : Holds c q rb) :
    rb.isEmpty.1 = .ok (decide (q.length = 0)) ∧ Holds c q rb.isEmpty.2 := by
  have hh2 := hh
  obtain ⟨h, slots, hr, -, hcount, -⟩ := hh2
  rw [isEmpty_of_readable rb hr.readable, hr.headerOf_eq, hcount]
  exact ⟨rfl, hh.transfer_holds hr.good rfl⟩

theorem isFull_holds {c : Nat} {q : List (List Byte)} {rb : RingBuffer} (hh : Holds c q rb) :
    rb.isFull.1 = .ok (decide (q.length = c)) ∧ Holds c q rb.isFull.2 := by
  have hh2 := hh
  obtain ⟨h, slots, hr, -, hcount, -⟩ := hh2
  rw [isFull_of_readable rb hr.readable, hr.headerOf_eq, hcount, hr.cap]
  exact ⟨rfl, hh.transfer_holds hr.good rfl⟩

theorem Holds.length_le {c : Nat} {q : List (List Byte)} {rb : RingBuffer} (hh : Holds c q rb) :
    q.length ≤ c := by
  obtain ⟨h, slots, hr, ⟨i1, -⟩, hcount, -⟩ := hh
  rw [← hcount, ← hr.cap]; exact i1

/-- One call on a ring that holds `q`: the outcome is the observed one, and the
ring then holds what the abstract FIFO holds. -/
theorem call_holds {c : Nat} {q : List (List Byte)} {rb : RingBuffer} (hh : Holds c q rb)
    (k : Call) :
    (rb.call k).1 = observed c q k ∧ Holds c (Fifo.call c q k).2 (rb.call k).2 := by
  cases k with
  | pushMessage m =>
    simp only [RingBuffer.call, observed, Fifo.call]
    by_cases hm : m.length > MAX_MESSAGE_LENGTH
    · rw [if_pos hm, push_too_long rb m hm]
      exact ⟨rfl, hh⟩
    · rw [if_neg hm]
      by_cases hq : q.length ≥ c
      · rw [if_pos hq]
        obtain ⟨h1, h2⟩ := push_full_holds hh m (by omega) hq
        rw [h1]
        exact ⟨rfl, h2⟩
      · rw [if_neg hq]
        obtain ⟨h1, h2⟩ := push_holds hh m (by omega) (by omega)
        rw [h1]
        exact ⟨rfl, h2⟩
  | popMessage =>
    cases q with
    | nil =>
      obtain ⟨h1, h2⟩ := pop_empty_holds hh
      simp only [RingBuffer.call, observed, Fifo.call, h1]
      exact ⟨rfl, h2⟩
    | cons m q =>
      obtain ⟨h1, h2⟩ := pop_holds hh
      simp only [RingBuffer.call, observed, Fifo.call, h1]
      exact ⟨trivial, h2⟩
  | isEmpty =>
    obtain ⟨h1, h2⟩ := isEmpty_holds hh
    simp only [RingBuffer.call, observed, Fifo.call, h1]
    exact ⟨rfl, h2⟩
  | isFull =>
    obtain ⟨h1, h2⟩ := isFull_holds hh
    simp only [RingBuffer.call, observed, Fifo.call, h1]
    exact ⟨rfl, h2⟩

theorem run_holds {c : Nat} (ks : List Call) {q : List (List Byte)} {rb : RingBuffer}
    (hh : Holds c q rb) : Holds c (Fifo.run c q ks).2 (rb.run ks).2 := by
  induction ks generalizing q rb with
  | nil => exact hh
  | cons k ks ih =>
    simp only [RingBuffer.run, Fifo.run]
    exact ih (call_holds hh k).2

/-! ## The header invariant -/

theorem new_ok_eq_freshQueue {path : PathState} {c : Nat} {rb : RingBuffer} (hf : Fits c)
    (hnew : RingBuffer.new path c true = .ok rb) : rb = freshQueue c := by
  by_cases hp : path = .unopenable
  · subst hp
    simp [RingBuffer.new, FileManager.open] at hnew
  · rw [new_eq_freshQueue path c hp hf] at hnew
    exact (Outcome.ok.inj hnew).symm

/-- C8 as stated fails at capacity 0: the queue is created, and its header has
`head == 0 == capacity`, so `head < capacity` does not hold. -/
theorem header_invariant_fails_at_zero_capacity :
    RingBuffer.new PathState.absent 0 true = Outcome.ok (freshQueue 0) ∧
    headerOf (freshQueue 0) = { capacity := 0, head := 0, tail := 0, count := 0 } ∧
    ¬ ((headerOf (freshQueue 0)).head < (headerOf (freshQueue 0)).capacity) := by
  refine ⟨by decide, by decide, by decide⟩

/-- C8, amended: for a capacity `c >= 1` (whose file fits the `size_t` offsets),
after any sequence of `pushMessage`, `popMessage`, `isEmpty` and `isFull` calls
on the queue that `RingBuffer(filename, c, true)` made, whether they succeed or
fail, the header in the file has `count <= capacity`, `head < capacity`,
`tail < capacity`, `tail == (head + count) mod capacity` and `capacity == c`. -/
theorem header_invariant (path : PathState) (c : Nat) (rb : RingBuffer) (ks : List Call)
    (hc : 1 ≤ c) (hf : Fits c) (hnew : RingBuffer.new path c true = .ok rb) :
    0 ≤ (headerOf (rb.run ks).2).count ∧
    (headerOf (rb.run ks).2).count ≤ (headerOf (rb.run ks).2).capacity ∧
    (headerOf (rb.run ks).2).head < (headerOf (rb.run ks).2).capacity ∧
    (headerOf (rb.run ks).2).tail < (headerOf (rb.run ks).2).capacity ∧
    (headerOf (rb.run ks).2).tail =
      ((headerOf (rb.run ks).2).head + (headerOf (rb.run ks).2).count) %
        (headerOf (rb.run ks).2).capacity ∧
    (headerOf (rb.run ks).2).capacity = c := by
  rw [new_ok_eq_freshQueue hf hnew]
  obtain ⟨h, slots, hr, ⟨i1, i2, i3, i4⟩, -⟩ := run_holds ks (freshQueue_holds c hc hf)
  rw [hr.headerOf_eq]
  exact ⟨Nat.zero_le _, i1, i2, i3, i4, hr.cap⟩

set_option maxRecDepth 1000000 in
/-- C8, amended, at capacity 3 after three pushes, a pop, a push that wraps the
tail, a rejected push and two queries. -/
theorem header_invariant_witness :
    1 ≤ 3 ∧ Fits 3 ∧ RingBuffer.new PathState.absent 3 true = .ok (freshQueue 3) ∧
    (0 ≤ (headerOf ((freshQueue 3).run wrapCalls).2).count ∧
      (headerOf ((freshQueue 3).run wrapCalls).2).count ≤
        (headerOf ((freshQueue 3).run wrapCalls).2).capacity ∧
      (headerOf ((freshQueue 3).run wrapCalls).2).head <
        (headerOf ((freshQueue 3).run wrapCalls).2).capacity ∧
      (headerOf ((freshQueue 3).run wrapCalls).2).tail <
        (headerOf ((freshQueue 3).run wrapCalls).2).capacity ∧
      (headerOf ((freshQueue 3).run wrapCalls).2).tail =
        ((headerOf ((freshQueue 3).run wrapCalls).2).head +
          (headerOf ((freshQueue 3).run wrapCalls).2).count) %
          (headerOf ((freshQueue 3).run wrapCalls).2).capacity ∧
      (headerOf ((freshQueue 3).run wrapCalls).2).capacity = 3) ∧
    headerOf ((freshQueue 3).run wrapCalls).2 =
      { capacity := 3, head := 1, tail := 1, count := 3 } :=
  ⟨by decide, by decide, by decide,
    header_invariant PathState.absent 3 (freshQueue 3) wrapCalls (by decide) (by decide) (by decide),
    by decide⟩

/-! ## The ring against the abstract FIFO, for messages that survive the slot -/

theorem observed_of_clean (c : Nat) (q : List (List Byte)) (k : Call)
    (hq : ∀ m, m ∈ q → Clean m) : observed c q k = (Fifo.call c q k).1 := by
  cases k with
  | popMessage =>
    cases q with
    | nil => rfl
    | cons m q =>
      simp only [observed, Fifo.call, popOutcome_padSlot m (hq m (List.mem_cons_self _ _))]
      rfl
  | pushMessage m => rfl
  | isEmpty => rfl
  | isFull => rfl

theorem Fifo.call_clean (c : Nat) (q : List (List Byte)) (k : Call)
    (hq : ∀ m, m ∈ q → Clean m) (hk : ∀ m, k = .pushMessage m → Clean m) :
    ∀ m, m ∈ (Fifo.call c q k).2 → Clean m := by
  cases k with
  | popMessage =>
    cases q with
    | nil => exact hq
    | cons m q => exact fun m1 h1 => hq m1 (List.mem_cons_of_mem _ h1)
  | pushMessage m =>
    simp only [Fifo.call]
    split
    · exact hq
    · split
      · exact hq
      · intro m1 h1
        rcases List.mem_append.mp h1 with h2 | h2
        · exact hq m1 h2
        · rw [List.mem_singleton.mp h2]; exact hk m rfl
  | isEmpty => exact hq
  | isFull => exact hq

theorem run_refines {c : Nat} (ks : List Call) {q : List (List Byte)} {rb : RingBuffer}
    (hh : Holds c q rb) (hq : ∀ m, m ∈ q → Clean m)
    (hks : ∀ m, Call.pushMessage m ∈ ks → Clean m) :
    (rb.run ks).1 = (Fifo.run c q ks).1 := by
  induction ks generalizing q rb with
  | nil => rfl
  | cons k ks ih =>
    obtain ⟨h1, h2⟩ := call_holds hh k
    simp only [RingBuffer.run, Fifo.run]
    rw [h1, observed_of_clean c q k hq]
    congr 1
    exact ih h2
      (Fifo.call_clean c q k hq (fun m hm => hks m (by rw [hm]; exact List.mem_cons_self _ _)))
      (fun m hm => hks m (List.mem_cons_of_mem _ hm))

/-- Refinement for messages that survive the slot: on a queue of capacity
`c >= 1` made by the constructor, every sequence of calls whose pushed messages
are shorter than `MAX_MESSAGE_LENGTH` and free of zero bytes has, call by call,
the outcomes of the abstract bounded FIFO of capacity `c`. -/
theorem ring_refines_fifo_on_clean_messages (path : PathState) (c : Nat) (rb : RingBuffer)
    (ks : List Call) (hc : 1 ≤ c) (hf : Fits c)
    (hnew : RingBuffer.new path c true = .ok rb)
    (hks : ∀ m, Call.pushMessage m ∈ ks → Clean m) :
    (rb.run ks).1 = (Fifo.run c [] ks).1 := by
  rw [new_ok_eq_freshQueue hf hnew]
  exact run_refines ks (freshQueue_holds c hc hf) (by simp) hks

theorem Fifo.run_append (c : Nat) (q : List (List Byte)) (ks ls : List Call) :
    (Fifo.run c q (ks ++ ls)).1 = (Fifo.run c q ks).1 ++ (Fifo.run c (Fifo.run c q ks).2 ls).1 := by
  induction ks generalizing q with
  | nil => rfl
  | cons k ks ih =>
    have h := ih (Fifo.call c q k).2
    simp only [List.cons_append, Fifo.run, List.cons.injEq, true_and]
    exact h

theorem Fifo.run_pushes (c : Nat) (q ms : List (List Byte))
    (hms : ∀ m, m ∈ ms → m.length ≤ MAX_MESSAGE_LENGTH) (hlen : q.length + ms.length ≤ c) :
    Fifo.run c q (ms.map Call.pushMessage) = (ms.map (fun _ => .ok .done), q ++ ms) := by
  induction ms generalizing q with
  | nil => simp [Fifo.run]
  | cons m ms ih =>
    have h1 : ¬ m.length > MAX_MESSAGE_LENGTH := by
      have := hms m (List.mem_cons_self _ _); omega
    simp only [List.length_cons] at hlen
    have h2 : ¬ q.length ≥ c := by omega
    simp only [List.map_cons, Fifo.run, Fifo.call, if_neg h1, if_neg h2]
    rw [ih (q ++ [m]) (fun m1 hm1 => hms m1 (List.mem_cons_of_mem _ hm1))
      (by simp only [List.length_append, List.length_singleton]; omega)]
    simp

theorem Fifo.run_pops (c : Nat) (q : List (List Byte)) :
    Fifo.run c q (List.replicate q.length Call.popMessage) =
      (q.map (fun m => .ok (.message m)), []) := by
  induction q with
  | nil => rfl
  | cons m q ih =>
    simp only [List.length_cons, List.replicate_succ, Fifo.run, Fifo.call, ih, List.map_cons]

/-- FIFO order for messages that survive the slot: `n <= c` messages, each
shorter than `MAX_MESSAGE_LENGTH` and free of zero bytes, pushed in order onto
a queue made by the constructor and then popped `n` times, all succeed and come
back in the order pushed. -/
theorem fifo_order_on_clean_messages (path : PathState) (c : Nat) (rb : RingBuffer)
    (ms : List (List Byte)) (hc : 1 ≤ c) (hf : Fits c)
    (hnew : RingBuffer.new path c true = .ok rb)
    (hlen : ms.length ≤ c) (hms : ∀ m, m ∈ ms → Clean m) :
    (rb.run (ms.map Call.pushMessage ++ List.replicate ms.length Call.popMessage)).1 =
      ms.map (fun _ => .ok .done) ++ ms.map (fun m => .ok (.message m)) := by
  rw [ring_refines_fifo_on_clean_messages path c rb _ hc hf hnew, Fifo.run_append,
    Fifo.run_pushes c [] ms (fun m hm => Nat.le_of_lt (hms m hm).1) (by simpa using hlen)]
  · simp only [List.nil_append, Fifo.run_pops]
  · intro m hm
    rcases List.mem_append.mp hm with h1 | h1
    · obtain ⟨m1, hm1, he⟩ := List.mem_map.mp h1
      cases he
      exact hms m hm1
    · have := (List.mem_replicate.mp h1).2
      cases this

/-- Round trip for messages that survive the slot: on an empty ring of `c >= 1`
slots in canonical form, a push of a message shorter than `MAX_MESSAGE_LENGTH`
and free of zero bytes succeeds, and the pop right after it returns the same
bytes. -/
theorem round_trip_on_clean_message (c : Nat) (rb : RingBuffer) (m : List Byte)
    (hh : Holds c [] rb) (hm : Clean m) :
    (rb.pushMessage m).1 = .ok () ∧ (rb.pushMessage m).2.popMessage.1 = .ok m := by
  have hc : 0 < c := by
    obtain ⟨h, slots, hr, ⟨-, i2, -⟩, -⟩ := hh
    rw [← hr.cap]; omega
  obtain ⟨h1, h2⟩ := push_holds hh m (Nat.le_of_lt hm.1) (by simpa using hc)
  obtain ⟨h3, -⟩ := pop_holds (by simpa using h2)
  exact ⟨h1, by rw [h3, popOutcome_padSlot m hm]⟩

/-! ## Messages of exactly `MAX_MESSAGE_LENGTH` bytes -/

theorem pop_of_full_length_message {c : Nat} {m : List Byte} {q : List (List Byte)}
    {rb : RingBuffer} (hh : Holds c (m :: q) rb) (hl : m.length = MAX_MESSAGE_LENGTH)
    (hz : (0 : Byte) ∉ m) : rb.popMessage.1 = .undefined .unterminatedString := by
  rw [(pop_holds hh).1]
  unfold popOutcome
  rw [cstring_full_slot m hl hz]

set_option maxRecDepth 1000000 in
/-- C1 at its failing input: on the queue the constructor makes for capacity 2,
"First" and a message of twenty bytes `a` are pushed and accepted; the first pop
returns "First", the second reads a slot without a zero byte and so leaves
defined behaviour instead of returning the twenty bytes. -/
theorem fifo_order_breaks_at_full_length_message :
    RingBuffer.new PathState.absent 2 true = .ok (freshQueue 2) ∧
    (List.replicate 20 (97 : Byte)).length ≤ MAX_MESSAGE_LENGTH ∧
    (0 : Byte) ∉ List.replicate 20 (97 : Byte) ∧
    ((freshQueue 2).run [.pushMessage (ascii "First"), .pushMessage (List.replicate 20 97),
        .popMessage, .popMessage]).1 =
      [.ok .done, .ok .done, .ok (.message (ascii "First")),
        .undefined .unterminatedString] := by
  refine ⟨by decide, by decide, by decide, by decide⟩

set_option maxRecDepth 1000000 in
/-- C2 at its failing input: on the empty queue the constructor makes for
capacity 1, the push of twenty bytes `x` is accepted and fills the slot, and the
pop right after it does not return them: `std::string(buffer.data())` finds no
zero byte in the buffer. -/
theorem round_trip_breaks_at_full_length_message :
    RingBuffer.new PathState.absent 1 true = .ok (freshQueue 1) ∧
    (freshQueue 1).isFull.1 = .ok false ∧
    ((freshQueue 1).pushMessage (List.replicate 20 120)).1 = .ok () ∧
    slotsOf ((freshQueue 1).pushMessage (List.replicate 20 120)).2 = List.replicate 20 120 ∧
    ((freshQueue 1).pushMessage (List.replicate 20 120)).2.popMessage.1 =
      .undefined .unterminatedString ∧
    ((freshQueue 1).pushMessage (List.replicate 20 120)).2.popMessage.1 ≠
      .ok (List.replicate 20 120) := by
  refine ⟨by decide, by decide, by decide, by decide, by decide, by decide⟩

set_option maxRecDepth 1000000 in
/-- C3 at its failing input: on a queue of capacity 3, after three pushes and a
pop, a message of twenty bytes `z` is pushed into the slot the tail has wrapped
to; the abstract FIFO hands it out on the fourth pop, the ring buffer leaves
defined behaviour there. -/
theorem refinement_breaks_at_full_length_message :
    RingBuffer.new PathState.absent 3 true = .ok (freshQueue 3) ∧
    ((freshQueue 3).run [.pushMessage (ascii "Msg1"), .pushMessage (ascii "Msg2"),
        .pushMessage (ascii "Msg3"), .popMessage, .pushMessage (List.replicate 20 122),
        .popMessage, .popMessage, .popMessage]).1 =
      [.ok .done, .ok .done, .ok .done, .ok (.message (ascii "Msg1")), .ok .done,
        .ok (.message (ascii "Msg2")), .ok (.message (ascii "Msg3")),
        .undefined .unterminatedString] ∧
    (Fifo.run 3 [] [.pushMessage (ascii "Msg1"), .pushMessage (ascii "Msg2"),
        .pushMessage (ascii "Msg3"), .popMessage, .pushMessage (List.replicate 20 122),
        .popMessage, .popMessage, .popMessage]).1 =
      [.ok .done, .ok .done, .ok .done, .ok (.message (ascii "Msg1")), .ok .done,
        .ok (.message (ascii "Msg2")), .ok (.message (ascii "Msg3")),
        .ok (.message (List.replicate 20 122))] := by
  refine ⟨by decide, by decide, by decide⟩

set_option maxRecDepth 1000000 in
/-- The wrap-around scenario of the tests on a queue of capacity 3, with
messages of four bytes: the ring buffer and the abstract FIFO answer alike. -/
theorem wrap_around_scenario :
    ((freshQueue 3).run [.pushMessage (ascii "Msg1"), .pushMessage (ascii "Msg2"),
        .pushMessage (ascii "Msg3"), .isFull, .popMessage, .pushMessage (ascii "Msg4"),
        .isFull, .popMessage, .popMessage, .popMessage, .isEmpty]).1 =
      [.ok .done, .ok .done, .ok .done, .ok (.flag true), .ok (.message (ascii "Msg1")),
        .ok .done, .ok (.flag true), .ok (.message (ascii "Msg2")),
        .ok (.message (ascii "Msg3")), .ok (.message (ascii "Msg4")), .ok (.flag true)] ∧
    (Fifo.run 3 [] [.pushMessage (ascii "Msg1"), .pushMessage (ascii "Msg2"),
        .pushMessage (ascii "Msg3"), .isFull, .popMessage, .pushMessage (ascii "Msg4"),
        .isFull, .popMessage, .popMessage, .popMessage, .isEmpty]).1 =
      [.ok .done, .ok .done, .ok .done, .ok (.flag true), .ok (.message (ascii "Msg1")),
        .ok .done, .ok (.flag true), .ok (.message (ascii "Msg2")),
        .ok (.message (ascii "Msg3")), .ok (.message (ascii "Msg4")), .ok (.flag true)] := by
  refine ⟨by decide, by decide⟩

/-! ## Whole queue files -/

theorem encodeLE_decodeLE_of_length (bs : List Byte) (w : Nat) (hl : bs.length = w) :
    encodeLE w (decodeLE bs) = bs := by
  rw [← hl]; exact encodeLE_decodeLE bs

theorem decodeLE_lt_size (bs : List Byte) (hl : bs.length ≤ W) : decodeLE bs < SIZE_MOD := by
  rw [size_mod_eq]
  exact Nat.lt_of_lt_of_le (decodeLE_lt bs) (Nat.pow_le_pow_right (by decide) hl)

theorem decodeHeader_representable (bs : List Byte) : (decodeHeader bs).Representable := by
  refine ⟨?_, ?_, ?_, ?_⟩ <;>
    exact decodeLE_lt_size _ (by rw [List.length_take]; exact Nat.min_le_left _ _)

theorem encodeHeader_decodeHeader (bs : List Byte) (hl : bs.length = sizeofHeader) :
    encodeHeader (decodeHeader bs) = bs := by
  have hw : sizeofHeader = 4 * W := rfl
  have l1 : (bs.take W).length = W := by rw [List.length_take]; omega
  have l2 : ((bs.drop W).take W).length = W := by
    rw [List.length_take, List.length_drop]; omega
  have l3 : ((bs.drop (2 * W)).take W).length = W := by
    rw [List.length_take, List.length_drop]; omega
  have l4 : ((bs.drop (3 * W)).take W).length = W := by
    rw [List.length_take, List.length_drop]; omega
  have t4 : (bs.drop (3 * W)).take W = bs.drop (3 * W) :=
    List.take_of_length_le (by rw [List.length_drop]; omega)
  simp only [encodeHeader, decodeHeader]
  rw [encodeLE_decodeLE_of_length _ W l1, encodeLE_decodeLE_of_length _ W l2,
    encodeLE_decodeLE_of_length _ W l3, encodeLE_decodeLE_of_length _ W l4, t4]
  have d3 : bs.drop (3 * W) = (bs.drop (2 * W)).drop W := by
    rw [List.drop_drop, show 2 * W + W = 3 * W by omega]
  have d2 : bs.drop (2 * W) = (bs.drop W).drop W := by
    rw [List.drop_drop, show W + W = 2 * W by omega]
  rw [d3, List.take_append_drop, d2, List.take_append_drop, List.take_append_drop]

theorem WellFormed.rep {rb : RingBuffer} (hw : WellFormed rb) :
    Rep (headerOf rb).capacity rb (headerOf rb) (slotsOf rb) := by
  obtain ⟨hg, hl, hf⟩ := hw
  refine ⟨hg, ?_, ?_, rfl, hf, decodeHeader_representable _⟩
  · unfold headerOf slotsOf
    rw [encodeHeader_decodeHeader _ (by rw [List.length_take]; omega), List.take_append_drop]
  · unfold slotsOf
    rw [List.length_drop, hl]; omega

theorem Rep.wellFormed {c : Nat} {rb : RingBuffer} {h : RingBufferHeader} {slots : List Byte}
    (hr : Rep c rb h slots) : WellFormed rb := by
  refine ⟨hr.good, ?_, ?_⟩
  · rw [hr.headerOf_eq, hr.cap, hr.bytes, List.length_append, encodeHeader_length, hr.len]
  · rw [hr.headerOf_eq, hr.cap]; exact hr.fits

theorem push_rep {c : Nat} {rb : RingBuffer} {h : RingBufferHeader} {slots : List Byte}
    (hr : Rep c rb h slots) (m : List Byte) (hm : m.length ≤ MAX_MESSAGE_LENGTH)
    (hc : h.count < c) (ht : h.tail < c) :
    (rb.pushMessage m).1 = .ok () ∧
    Rep c (rb.pushMessage m).2 h.pushed
      (writeAt slots (MAX_MESSAGE_LENGTH * h.tail) (padSlot m)) ∧
    (rb.pushMessage m).2.capacity_ = rb.capacity_ ∧
    (rb.pushMessage m).2.file_manager_.log = rb.file_manager_.log ++
      [.read HEADER_OFFSET sizeofHeader,
       .write (sizeofHeader + MAX_MESSAGE_LENGTH * h.tail) MAX_MESSAGE_LENGTH,
       .write HEADER_OFFSET sizeofHeader] := by
  have hcap := hr.cap
  have hlt := hr.fits.capacity_lt
  have hpl := padSlot_length m hm
  rw [push_of_rep hr m hm hc ht]
  refine ⟨rfl, ⟨rfl, rfl, ?_, hcap, hr.fits, ?_⟩, rfl, rfl⟩
  · rw [writeAt_length _ _ _ (by rw [hpl, hr.len]; exact slot_bound _ _ ht), hr.len]
  · have := Nat.mod_lt (h.tail + 1) (show h.capacity > 0 by omega)
    obtain ⟨r1, r2, r3, r4⟩ := hr.repr
    exact ⟨r1, r2, by simp only [RingBufferHeader.pushed]; omega,
      by simp only [RingBufferHeader.pushed]; omega⟩

theorem pop_rep {c : Nat} {rb : RingBuffer} {h : RingBufferHeader} {slots : List Byte}
    (hr : Rep c rb h slots) (hc : h.count ≠ 0) (hh : h.head < c) :
    rb.popMessage.1 = popOutcome (slotAt slots h.head) ∧
    Rep c rb.popMessage.2 h.popped
      (writeAt slots (MAX_MESSAGE_LENGTH * h.head) (List.replicate MAX_MESSAGE_LENGTH 0)) ∧
    rb.popMessage.2.capacity_ = rb.capacity_ ∧
    rb.popMessage.2.file_manager_.log = rb.file_manager_.log ++
      [.read HEADER_OFFSET sizeofHeader,
       .read (sizeofHeader + MAX_MESSAGE_LENGTH * h.head) MAX_MESSAGE_LENGTH,
       .write (sizeofHeader + MAX_MESSAGE_LENGTH * h.head) MAX_MESSAGE_LENGTH,
       .write HEADER_OFFSET sizeofHeader] := by
  have hcap := hr.cap
  have hlt := hr.fits.capacity_lt
  have hzl : (List.replicate MAX_MESSAGE_LENGTH (0 : Byte)).length = MAX_MESSAGE_LENGTH := by simp
  rw [pop_of_rep hr hc hh]
  refine ⟨rfl, ⟨rfl, rfl, ?_, hcap, hr.fits, ?_⟩, rfl, rfl⟩
  · rw [writeAt_length _ _ _ (by rw [hzl, hr.len]; exact slot_bound _ _ hh), hr.len]
  · have := Nat.mod_lt (h.head + 1) (show h.capacity > 0 by omega)
    obtain ⟨r1, r2, r3, r4⟩ := hr.repr
    exact ⟨r1, by simp only [RingBufferHeader.popped]; omega, r3,
      by simp only [RingBufferHeader.popped]; omega⟩

theorem padSlot_eq (m : List Byte) :
    padSlot m = m ++ List.replicate (MAX_MESSAGE_LENGTH - m.length) 0 := by
  unfold padSlot
  rw [List.drop_replicate]

/-! ## The push step and the pop step -/

/-- C12: on a whole queue file whose header satisfies the invariant with
`count < capacity`, a push of a message of at most `MAX_MESSAGE_LENGTH` bytes
succeeds; afterwards the slot at the old tail holds the message followed by zero
bytes up to 20 bytes, `tail` is `(old tail + 1) mod capacity`, `count` is one
more, and `capacity`, `head`, every other slot and the length of the file are
as before. -/
theorem pushMessage_step (rb : RingBuffer) (m : List Byte) (hw : WellFormed rb)
    (hinv : HeaderInv (headerOf rb)) (hc : (headerOf rb).count < (headerOf rb).capacity)
    (hm : m.length ≤ MAX_MESSAGE_LENGTH) :
    (rb.pushMessage m).1 = .ok () ∧
    slotAt (slotsOf (rb.pushMessage m).2) (headerOf rb).tail =
      m ++ List.replicate (MAX_MESSAGE_LENGTH - m.length) 0 ∧
    (headerOf (rb.pushMessage m).2).tail = ((headerOf rb).tail + 1) % (headerOf rb).capacity ∧
    (headerOf (rb.pushMessage m).2).count = (headerOf rb).count + 1 ∧
    (headerOf (rb.pushMessage m).2).capacity = (headerOf rb).capacity ∧
    (headerOf (rb.pushMessage m).2).head = (headerOf rb).head ∧
    (∀ j, j ≠ (headerOf rb).tail →
      slotAt (slotsOf (rb.pushMessage m).2) j = slotAt (slotsOf rb) j) ∧
    (rb.pushMessage m).2.file_manager_.bytes.length = rb.file_manager_.bytes.length ∧
    WellFormed (rb.pushMessage m).2 := by
  obtain ⟨i1, i2, i3, i4⟩ := hinv
  have hr := hw.rep
  obtain ⟨h1, h2, -, -⟩ := push_rep hr m hm hc i3
  have hpl := padSlot_length m hm
  have hl2 := h2.wellFormed.2.1
  rw [h2.headerOf_eq] at hl2
  refine ⟨h1, ?_, ?_, ?_, ?_, ?_, ?_, ?_, h2.wellFormed⟩
  · rw [h2.slotsOf_eq, ← padSlot_eq]
    exact slotAt_writeAt_same _ _ _ _ hr.len i3 hpl
  · rw [h2.headerOf_eq]; rfl
  · rw [h2.headerOf_eq]; rfl
  · rw [h2.headerOf_eq]; rfl
  · rw [h2.headerOf_eq]; rfl
  · intro j hj
    rw [h2.slotsOf_eq]
    exact slotAt_writeAt_other _ _ _ j _ hr.len i3 (Ne.symm hj) hpl
  · rw [hl2, hw.2.1]; rfl

set_option maxRecDepth 1000000 in
/-- C12 on a queue of capacity 3 that holds "Msg1": the push of "Msg2" goes into
slot 1 and moves the tail from 1 to 2. -/
theorem pushMessage_step_witness :
    WellFormed ((freshQueue 3).pushMessage (ascii "Msg1")).2 ∧
    HeaderInv (headerOf ((freshQueue 3).pushMessage (ascii "Msg1")).2) ∧
    (headerOf ((freshQueue 3).pushMessage (ascii "Msg1")).2).tail = 1 ∧
    ((((freshQueue 3).pushMessage (ascii "Msg1")).2.pushMessage (ascii "Msg2")).1 = .ok () ∧
      slotAt (slotsOf (((freshQueue 3).pushMessage (ascii "Msg1")).2.pushMessage
          (ascii "Msg2")).2) (headerOf ((freshQueue 3).pushMessage (ascii "Msg1")).2).tail =
        ascii "Msg2" ++ List.replicate (MAX_MESSAGE_LENGTH - (ascii "Msg2").length) 0 ∧
      (headerOf (((freshQueue 3).pushMessage (ascii "Msg1")).2.pushMessage
          (ascii "Msg2")).2).tail =
        ((headerOf ((freshQueue 3).pushMessage (ascii "Msg1")).2).tail + 1) %
          (headerOf ((freshQueue 3).pushMessage (ascii "Msg1")).2).capacity) ∧
    headerOf (((freshQueue 3).pushMessage (ascii "Msg1")).2.pushMessage (ascii "Msg2")).2 =
      { capacity := 3, head := 0, tail := 2, count := 2 } :=
  ⟨by decide, by decide, by decide,
    ⟨(pushMessage_step ((freshQueue 3).pushMessage (ascii "Msg1")).2 (ascii "Msg2")
        (by decide) (by decide) (by decide) (by decide)).1,
      (pushMessage_step ((freshQueue 3).pushMessage (ascii "Msg1")).2 (ascii "Msg2")
        (by decide) (by decide) (by decide) (by decide)).2.1,
      (pushMessage_step ((freshQueue 3).pushMessage (ascii "Msg1")).2 (ascii "Msg2")
        (by decide) (by decide) (by decide) (by decide)).2.2.1⟩,
    by decide⟩

theorem popOutcome_of_zero (buffer : List Byte) (hz : (0 : Byte) ∈ buffer) :
    popOutcome buffer = .ok (buffer.takeWhile (fun b => b ≠ 0)) := by
  unfold popOutcome cstring
  rw [if_pos hz]

theorem popOutcome_of_no_zero (buffer : List Byte) (hz : (0 : Byte) ∉ buffer) :
    popOutcome buffer = .undefined .unterminatedString := by
  unfold popOutcome cstring
  rw [if_neg hz]

/-- The pop step on a whole queue file whose header satisfies the invariant with
`count > 0`: the file changes as a pop should change it whatever the slot
holds; the call returns the bytes before the first zero byte of the slot when
the slot has one, and leaves defined behaviour when it has none. -/
theorem popMessage_step (rb : RingBuffer) (hw : WellFormed rb)
    (hinv : HeaderInv (headerOf rb)) (hc : 0 < (headerOf rb).count) :
    ((0 : Byte) ∈ slotAt (slotsOf rb) (headerOf rb).head →
      rb.popMessage.1 =
        .ok ((slotAt (slotsOf rb) (headerOf rb).head).takeWhile (fun b => b ≠ 0))) ∧
    ((0 : Byte) ∉ slotAt (slotsOf rb) (headerOf rb).head →
      rb.popMessage.1 = .undefined .unterminatedString) ∧
    slotAt (slotsOf rb.popMessage.2) (headerOf rb).head = List.replicate MAX_MESSAGE_LENGTH 0 ∧
    (headerOf rb.popMessage.2).head = ((headerOf rb).head + 1) % (headerOf rb).capacity ∧
    (headerOf rb.popMessage.2).count = (headerOf rb).count - 1 ∧
    (headerOf rb.popMessage.2).capacity = (headerOf rb).capacity ∧
    (headerOf rb.popMessage.2).tail = (headerOf rb).tail ∧
    (∀ j, j ≠ (headerOf rb).head →
      slotAt (slotsOf rb.popMessage.2) j = slotAt (slotsOf rb) j) ∧
    rb.popMessage.2.file_manager_.bytes.length = rb.file_manager_.bytes.length ∧
    WellFormed rb.popMessage.2 := by
  obtain ⟨i1, i2, i3, i4⟩ := hinv
  have hr := hw.rep
  obtain ⟨h1, h2, -, -⟩ := pop_rep hr (by omega) i2
  have hzl : (List.replicate MAX_MESSAGE_LENGTH (0 : Byte)).length = MAX_MESSAGE_LENGTH := by simp
  have hl2 := h2.wellFormed.2.1
  rw [h2.headerOf_eq] at hl2
  refine ⟨?_, ?_, ?_, ?_, ?_, ?_, ?_, ?_, ?_, h2.wellFormed⟩
  · intro hz; rw [h1, popOutcome_of_zero _ hz]
  · intro hz; rw [h1, popOutcome_of_no_zero _ hz]
  · rw [h2.slotsOf_eq]
    exact slotAt_writeAt_same _ _ _ _ hr.len i2 hzl
  · rw [h2.headerOf_eq]; rfl
  · rw [h2.headerOf_eq]; rfl
  · rw [h2.headerOf_eq]; rfl
  · rw [h2.headerOf_eq]; rfl
  · intro j hj
    rw [h2.slotsOf_eq]
    exact slotAt_writeAt_other _ _ _ j _ hr.len i2 (Ne.symm hj) hzl
  · rw [hl2, hw.2.1]; rfl

set_option maxRecDepth 1000000 in
/-- C13 at its failing input: a queue of capacity 2 after the pushes of "Hello"
and of twenty bytes `q` and one pop is a whole file with `head == 1` and
`count == 1`; its slot 1 holds no zero byte, and the pop, which does zero the
slot and move the head, returns no message: it leaves defined behaviour. -/
theorem pop_step_breaks_on_full_slot :
    WellFormed ((freshQueue 2).run [.pushMessage (ascii "Hello"),
      .pushMessage (List.replicate 20 113), .popMessage]).2 ∧
    headerOf ((freshQueue 2).run [.pushMessage (ascii "Hello"),
      .pushMessage (List.replicate 20 113), .popMessage]).2 =
      { capacity := 2, head := 1, tail := 0, count := 1 } ∧
    slotAt (slotsOf ((freshQueue 2).run [.pushMessage (ascii "Hello"),
      .pushMessage (List.replicate 20 113), .popMessage]).2) 1 = List.replicate 20 113 ∧
    ((freshQueue 2).run [.pushMessage (ascii "Hello"),
      .pushMessage (List.replicate 20 113), .popMessage]).2.popMessage.1 =
      .undefined .unterminatedString ∧
    headerOf ((freshQueue 2).run [.pushMessage (ascii "Hello"),
      .pushMessage (List.replicate 20 113), .popMessage]).2.popMessage.2 =
      { capacity := 2, head := 0, tail := 0, count := 0 } := by
  refine ⟨by decide, by decide, by decide, by decide, by decide⟩

/-! ## Results depend on the file only -/

theorem pushMessage_same_file (rb1 rb2 : RingBuffer) (h : SameFile rb1 rb2) (m : List Byte) :
    (rb1.pushMessage m).1 = (rb2.pushMessage m).1 ∧
    SameFile (rb1.pushMessage m).2 (rb2.pushMessage m).2 := by
  obtain ⟨c1, b1, g1, l1⟩ := rb1
  obtain ⟨c2, b2, g2, l2⟩ := rb2
  obtain ⟨hb, hg⟩ := h
  simp only at hb hg
  subst hb hg
  simp only [SameFile, RingBuffer.pushMessage, FileManager.read, FileManager.write]
  split_ifs <;> (simp_all; try (split_ifs <;> simp_all))

theorem popMessage_same_file (rb1 rb2 : RingBuffer) (h : SameFile rb1 rb2) :
    rb1.popMessage.1 = rb2.popMessage.1 ∧ SameFile rb1.popMessage.2 rb2.popMessage.2 := by
  obtain ⟨c1, b1, g1, l1⟩ := rb1
  obtain ⟨c2, b2, g2, l2⟩ := rb2
  obtain ⟨hb, hg⟩ := h
  simp only at hb hg
  subst hb hg
  simp only [SameFile, RingBuffer.popMessage, FileManager.read, FileManager.write]
  split_ifs <;> (simp_all; try (split_ifs <;> (simp_all; try (split <;> simp_all))))

theorem isEmpty_same_file (rb1 rb2 : RingBuffer) (h : SameFile rb1 rb2) :
    rb1.isEmpty.1 = rb2.isEmpty.1 ∧ SameFile rb1.isEmpty.2 rb2.isEmpty.2 := by
  obtain ⟨c1, b1, g1, l1⟩ := rb1
  obtain ⟨c2, b2, g2, l2⟩ := rb2
  obtain ⟨hb, hg⟩ := h
  simp only at hb hg
  subst hb hg
  simp only [SameFile, RingBuffer.isEmpty, FileManager.read]
  split_ifs <;> simp_all

theorem isFull_same_file (rb1 rb2 : RingBuffer) (h : SameFile rb1 rb2) :
    rb1.isFull.1 = rb2.isFull.1 ∧ SameFile rb1.isFull.2 rb2.isFull.2 := by
  obtain ⟨c1, b1, g1, l1⟩ := rb1
  obtain ⟨c2, b2, g2, l2⟩ := rb2
  obtain ⟨hb, hg⟩ := h
  simp only at hb hg
  subst hb hg
  simp only [SameFile, RingBuffer.isFull, FileManager.read]
  split_ifs <;> simp_all

theorem call_same_file (rb1 rb2 : RingBuffer) (h : SameFile rb1 rb2) (k : Call) :
    (rb1.call k).1 = (rb2.call k).1 ∧ SameFile (rb1.call k).2 (rb2.call k).2 := by
  cases k with
  | pushMessage m =>
    obtain ⟨h1, h2⟩ := pushMessage_same_file rb1 rb2 h m
    simp only [RingBuffer.call, h1]
    exact ⟨trivial, h2⟩
  | popMessage =>
    obtain ⟨h1, h2⟩ := popMessage_same_file rb1 rb2 h
    simp only [RingBuffer.call, h1]
    exact ⟨trivial, h2⟩
  | isEmpty =>
    obtain ⟨h1, h2⟩ := isEmpty_same_file rb1 rb2 h
    simp only [RingBuffer.call, h1]
    exact ⟨trivial, h2⟩
  | isFull =>
    obtain ⟨h1, h2⟩ := isFull_same_file rb1 rb2 h
    simp only [RingBuffer.call, h1]
    exact ⟨trivial, h2⟩

theorem run_same_file (ks : List Call) (rb1 rb2 : RingBuffer) (h : SameFile rb1 rb2) :
    (rb1.run ks).1 = (rb2.run ks).1 ∧ SameFile (rb1.run ks).2 (rb2.run ks).2 := by
  induction ks generalizing rb1 rb2 with
  | nil => exact ⟨rfl, h⟩
  | cons k ks ih =>
    obtain ⟨h1, h2⟩ := call_same_file rb1 rb2 h k
    obtain ⟨h3, h4⟩ := ih _ _ h2
    simp only [RingBuffer.run, h1, h3]
    exact ⟨trivial, h4⟩

theorem attach_present (bs : List Byte) (hb : sizeofHeader ≤ bs.length) :
    RingBuffer.attach (.present bs) =
      .ok { capacity_ := (decodeHeader (bs.take sizeofHeader)).capacity
            file_manager_ :=
              { bytes := bs, good := true, log := [.read HEADER_OFFSET sizeofHeader] } } := by
  have hc : True ∧ HEADER_OFFSET + sizeofHeader ≤ bs.length := by
    refine ⟨trivial, ?_⟩
    simp only [HEADER_OFFSET]; omega
  simp only [RingBuffer.attach, FileManager.open, FileManager.read]
  rw [if_pos hc]
  simp [HEADER_OFFSET]

/-- Attaching to a file whose header can be read succeeds, leaves every byte of
the file as it is and adopts the capacity in the header; from then on the
attached object and any other object over the same file contents with a good
stream (the creating instance, for one) end every call of a sequence alike:
the same value, the same exception, or both leave defined behaviour at the same
call, where nothing is said about what either then returns; and they leave the
same bytes in the file. -/
theorem attach_agrees_up_to_undefined (bs : List Byte) (hb : sizeofHeader ≤ bs.length) :
    ∃ rb, RingBuffer.attach (.present bs) = .ok rb ∧
      rb.file_manager_.bytes = bs ∧
      rb.capacity_ = (decodeHeader (bs.take sizeofHeader)).capacity ∧
      ∀ rb0 : RingBuffer, rb0.file_manager_.bytes = bs → rb0.file_manager_.good = true →
        ∀ ks : List Call, (rb.run ks).1 = (rb0.run ks).1 ∧
          (rb.run ks).2.file_manager_.bytes = (rb0.run ks).2.file_manager_.bytes := by
  refine ⟨_, attach_present bs hb, rfl, rfl, ?_⟩
  intro rb0 h1 h2 ks
  have hs : SameFile
      { capacity_ := (decodeHeader (bs.take sizeofHeader)).capacity
        file_manager_ :=
          { bytes := bs, good := true, log := [.read HEADER_OFFSET sizeofHeader] } } rb0 :=
    ⟨h1.symm, h2.symm⟩
  obtain ⟨h3, h4, -⟩ := run_same_file ks _ rb0 hs
  exact ⟨h3, h4⟩

set_option maxRecDepth 1000000 in
/-- The persistence test: a queue of capacity 3 is created, "One" and "Two" are
pushed and the instance is dropped; an instance attached to the file it leaves
pops "One" and then "Two", as the creating instance would have. -/
theorem attach_persistence_test :
    sizeofHeader ≤ twoQueued.file_manager_.bytes.length ∧
    (twoQueued.run [.popMessage, .popMessage]).1 =
      [.ok (.message (ascii "One")), .ok (.message (ascii "Two"))] ∧
    ∃ rb, RingBuffer.attach (.present twoQueued.file_manager_.bytes) = .ok rb ∧
      rb.file_manager_.bytes = twoQueued.file_manager_.bytes ∧
      rb.capacity_ = 3 ∧
      (rb.run [.popMessage, .popMessage]).1 =
        [.ok (.message (ascii "One")), .ok (.message (ascii "Two"))] := by
  obtain ⟨rb, h1, h2, h3, h4⟩ := attach_agrees_up_to_undefined twoQueued.file_manager_.bytes (by decide)
  refine ⟨by decide, by decide, rb, h1, h2, ?_, ?_⟩
  · rw [h3]; decide
  · rw [(h4 twoQueued rfl (by decide) [.popMessage, .popMessage]).1]; decide

set_option maxRecDepth 1000000 in
/-- C11 at its failing input: a queue of capacity 3 is created, "One" and twenty
bytes `k` are pushed and the instance is dropped.  Attaching to the file it
leaves succeeds, changes no byte and adopts capacity 3, and the first pop
returns "One"; the second pop reads slot 1, which holds no zero byte, into a
buffer of 20 bytes and builds the string from it: what comes back is not
settled by the bytes of the file. -/
theorem attach_pop_breaks_on_full_slot :
    RingBuffer.new PathState.absent 3 true = .ok (freshQueue 3) ∧
    sizeofHeader ≤ ((freshQueue 3).run [.pushMessage (ascii "One"),
      .pushMessage (List.replicate 20 107)]).2.file_manager_.bytes.length ∧
    RingBuffer.attach (.present ((freshQueue 3).run [.pushMessage (ascii "One"),
        .pushMessage (List.replicate 20 107)]).2.file_manager_.bytes) =
      .ok (attachedTo ((freshQueue 3).run [.pushMessage (ascii "One"),
        .pushMessage (List.replicate 20 107)]).2.file_manager_.bytes) ∧
    (attachedTo ((freshQueue 3).run [.pushMessage (ascii "One"),
        .pushMessage (List.replicate 20 107)]).2.file_manager_.bytes).capacity_ = 3 ∧
    (attachedTo ((freshQueue 3).run [.pushMessage (ascii "One"),
        .pushMessage (List.replicate 20 107)]).2.file_manager_.bytes).file_manager_.bytes =
      ((freshQueue 3).run [.pushMessage (ascii "One"),
        .pushMessage (List.replicate 20 107)]).2.file_manager_.bytes ∧
    slotAt (slotsOf (attachedTo ((freshQueue 3).run [.pushMessage (ascii "One"),
        .pushMessage (List.replicate 20 107)]).2.file_manager_.bytes)) 1 =
      List.replicate 20 107 ∧
    ((attachedTo ((freshQueue 3).run [.pushMessage (ascii "One"),
        .pushMessage (List.replicate 20 107)]).2.file_manager_.bytes).run
        [.popMessage, .popMessage]).1 =
      [.ok (.message (ascii "One")), .undefined .unterminatedString] := by
  refine ⟨by decide, by decide, by decide, by decide, by decide, by decide, by decide⟩

/-- C14: `isEmpty()` and `isFull()` leave every byte of the file as it is, in
every state of the object and of the file, and each makes exactly one call to
the file, a read of `sizeof(RingBufferHeader)` bytes at `HEADER_OFFSET`, which
is offset 0. -/
theorem queries_read_only (rb : RingBuffer) :
    rb.isEmpty.2.file_manager_.bytes = rb.file_manager_.bytes ∧
    rb.isEmpty.2.file_manager_.log =
      rb.file_manager_.log ++ [.read HEADER_OFFSET sizeofHeader] ∧
    rb.isEmpty.2.capacity_ = rb.capacity_ ∧
    rb.isFull.2.file_manager_.bytes = rb.file_manager_.bytes ∧
    rb.isFull.2.file_manager_.log =
      rb.file_manager_.log ++ [.read HEADER_OFFSET sizeofHeader] ∧
    rb.isFull.2.capacity_ = rb.capacity_ ∧
    HEADER_OFFSET = 0 := by
  simp only [RingBuffer.isEmpty, RingBuffer.isFull, FileManager.read]
  split_ifs <;> simp [HEADER_OFFSET]

/-! ## The queue of capacity 0 -/

theorem zero_file_readable (rb : RingBuffer) (hg : rb.file_manager_.good = true)
    (hb : rb.file_manager_.bytes =
      encodeHeader { capacity := 0, head := 0, tail := 0, count := 0 }) :
    Readable rb ∧ headerOf rb = { capacity := 0, head := 0, tail := 0, count := 0 } := by
  refine ⟨⟨hg, ?_⟩, ?_⟩
  · rw [hb, encodeHeader_length]
  · unfold headerOf
    rw [hb]
    decide

theorem zero_capacity_call (rb : RingBuffer) (hg : rb.file_manager_.good = true)
    (hb : rb.file_manager_.bytes =
      encodeHeader { capacity := 0, head := 0, tail := 0, count := 0 }) (k : Call) :
    (rb.call k).1 = zeroCapacityReply k ∧
    (rb.call k).2.file_manager_.bytes = rb.file_manager_.bytes ∧
    (rb.call k).2.file_manager_.good = true ∧
    (∀ op, op ∈ (rb.call k).2.file_manager_.log →
      op ∈ rb.file_manager_.log ∨ op = .read HEADER_OFFSET sizeofHeader) := by
  obtain ⟨hr, hh⟩ := zero_file_readable rb hg hb
  have hlog : ∀ op, op ∈ (rb.file_manager_.logged (.read HEADER_OFFSET sizeofHeader)).log →
      op ∈ rb.file_manager_.log ∨ op = .read HEADER_OFFSET sizeofHeader := by
    intro op hop
    simpa [FileManager.logged] using hop
  cases k with
  | pushMessage m =>
    simp only [RingBuffer.call, zeroCapacityReply]
    by_cases hm : m.length > MAX_MESSAGE_LENGTH
    · rw [if_pos hm, push_too_long rb m hm]
      exact ⟨rfl, rfl, hg, fun op hop => Or.inl hop⟩
    · rw [if_neg hm, push_full_of_readable rb m hr (by omega) (by rw [hh])]
      exact ⟨rfl, rfl, hg, hlog⟩
  | popMessage =>
    simp only [RingBuffer.call, zeroCapacityReply]
    rw [pop_empty_of_readable rb hr (by rw [hh])]
    exact ⟨rfl, rfl, hg, hlog⟩
  | isEmpty =>
    simp only [RingBuffer.call, zeroCapacityReply]
    rw [isEmpty_of_readable rb hr, hh]
    exact ⟨rfl, rfl, hg, hlog⟩
  | isFull =>
    simp only [RingBuffer.call, zeroCapacityReply]
    rw [isFull_of_readable rb hr, hh]
    exact ⟨rfl, rfl, hg, hlog⟩

theorem zero_capacity_run (ks : List Call) (rb : RingBuffer)
    (hg : rb.file_manager_.good = true)
    (hb : rb.file_manager_.bytes =
      encodeHeader { capacity := 0, head := 0, tail := 0, count := 0 }) :
    (rb.run ks).1 = ks.map zeroCapacityReply ∧
    (rb.run ks).2.file_manager_.bytes = rb.file_manager_.bytes ∧
    (rb.run ks).2.file_manager_.good = true ∧
    (∀ op, op ∈ (rb.run ks).2.file_manager_.log →
      op ∈ rb.file_manager_.log ∨ op = .read HEADER_OFFSET sizeofHeader) := by
  induction ks generalizing rb with
  | nil => exact ⟨rfl, rfl, hg, fun op hop => Or.inl hop⟩
  | cons k ks ih =>
    obtain ⟨c1, c2, c3, c4⟩ := zero_capacity_call rb hg hb k
    obtain ⟨r1, r2, r3, r4⟩ := ih (rb.call k).2 c3 (by rw [c2, hb])
    simp only [RingBuffer.run, List.map_cons, c1, r1]
    refine ⟨trivial, by rw [r2, c2], r3, ?_⟩
    intro op hop
    rcases r4 op hop with h1 | h1
    · exact c4 op h1
    · exact Or.inr h1

/-- C19: on the queue that `RingBuffer(filename, 0, true)` makes, after any
sequence of calls, every push of a message of at most `MAX_MESSAGE_LENGTH` bytes
throws "Buffer full" and every pop throws "Buffer empty", each after just the
read of the header, so that no call reaches the remainder by the capacity;
`isEmpty()` and `isFull()` both return true; and the file keeps the bytes the
constructor wrote, with no write logged after those of the constructor. -/
theorem zero_capacity_inert (path : PathState) (rb : RingBuffer) (ks : List Call)
    (hnew : RingBuffer.new path 0 true = .ok rb) :
    (rb.run ks).1 = ks.map zeroCapacityReply ∧
    (∀ o, o ∈ (rb.run ks).1 → o ≠ .undefined .divisionByZero) ∧
    (∀ m : List Byte, m.length ≤ MAX_MESSAGE_LENGTH →
      ((rb.run ks).2.pushMessage m).1 = .threw .bufferFull ∧
      ((rb.run ks).2.pushMessage m).2.file_manager_.log =
        (rb.run ks).2.file_manager_.log ++ [.read HEADER_OFFSET sizeofHeader]) ∧
    ((rb.run ks).2.popMessage.1 = .threw .bufferEmpty ∧
      (rb.run ks).2.popMessage.2.file_manager_.log =
        (rb.run ks).2.file_manager_.log ++ [.read HEADER_OFFSET sizeofHeader]) ∧
    (rb.run ks).2.isEmpty.1 = .ok true ∧
    (rb.run ks).2.isFull.1 = .ok true ∧
    (rb.run ks).2.file_manager_.bytes =
      encodeHeader { capacity := 0, head := 0, tail := 0, count := 0 } ∧
    (∀ op, op ∈ (rb.run ks).2.file_manager_.log →
      op ∈ rb.file_manager_.log ∨ op = .read HEADER_OFFSET sizeofHeader) := by
  rw [new_ok_eq_freshQueue (by decide) hnew]
  obtain ⟨r1, r2, r3, r4⟩ := zero_capacity_run ks (freshQueue 0) rfl rfl
  have hb : ((freshQueue 0).run ks).2.file_manager_.bytes =
      encodeHeader { capacity := 0, head := 0, tail := 0, count := 0 } := by rw [r2]; rfl
  obtain ⟨hr, hh⟩ := zero_file_readable _ r3 hb
  refine ⟨r1, ?_, ?_, ?_, ?_, ?_, hb, r4⟩
  · intro o ho
    rw [r1] at ho
    obtain ⟨k, -, hk⟩ := List.mem_map.mp ho
    rw [← hk]
    cases k with
    | pushMessage m =>
      simp only [zeroCapacityReply]
      split <;> exact fun h => Outcome.noConfusion h
    | popMessage => exact fun h => Outcome.noConfusion h
    | isEmpty => exact fun h => Outcome.noConfusion h
    | isFull => exact fun h => Outcome.noConfusion h
  · intro m hm
    rw [push_full_of_readable _ m hr hm (by rw [hh])]
    exact ⟨rfl, rfl⟩
  · rw [pop_empty_of_readable _ hr (by rw [hh])]
    exact ⟨rfl, rfl⟩
  · rw [isEmpty_of_readable _ hr, hh]; rfl
  · rw [isFull_of_readable _ hr, hh]; rfl

set_option maxRecDepth 1000000 in
/-- C19 on a path where no file is yet, after a push, a pop, both queries and a
push of 21 bytes. -/
theorem zero_capacity_inert_witness :
    RingBuffer.new PathState.absent 0 true = .ok (freshQueue 0) ∧
    ((freshQueue 0).run [.pushMessage (ascii "A"), .popMessage, .isEmpty, .isFull,
        .pushMessage (List.replicate 21 97)]).1 =
      [.threw .bufferFull, .threw .bufferEmpty, .ok (.flag true), .ok (.flag true),
        .threw .messageTooLong] ∧
    ((freshQueue 0).run [.pushMessage (ascii "A"), .popMessage, .isEmpty, .isFull,
        .pushMessage (List.replicate 21 97)]).2.file_manager_.bytes =
      encodeHeader { capacity := 0, head := 0, tail := 0, count := 0 } ∧
    ((freshQueue 0).run [.pushMessage (ascii "A"), .popMessage, .isEmpty, .isFull,
        .pushMessage (List.replicate 21 97)]).2.file_manager_.log =
      [.write 0 32, .read 0 32, .read 0 32, .read 0 32, .read 0 32] :=
  ⟨by decide,
    (zero_capacity_inert PathState.absent (freshQueue 0) _ (by decide)).1,
    (zero_capacity_inert PathState.absent (freshQueue 0) _ (by decide)).2.2.2.2.2.2.1,
    by decide⟩

/-! ## Vacant slots and bounds -/

theorem slots_eq_zeros (slots : List Byte) (c : Nat)
    (hl : slots.length = MAX_MESSAGE_LENGTH * c)
    (hz : ∀ j, j < c → slotAt slots j = List.replicate MAX_MESSAGE_LENGTH 0) :
    slots = List.replicate (MAX_MESSAGE_LENGTH * c) 0 := by
  rw [List.eq_replicate_iff]
  refine ⟨hl, ?_⟩
  intro b hb
  obtain ⟨k, hk⟩ := List.mem_iff_getElem?.mp hb
  have hkl : k < slots.length := by
    rcases Nat.lt_or_ge k slots.length with h | h
    · exact h
    · rw [List.getElem?_eq_none h] at hk; cases hk
  have h20 : MAX_MESSAGE_LENGTH = 20 := rfl
  have hj : k / 20 < c := by
    rw [hl, h20] at hkl
    omega
  have hs := slotAt_getElem? slots (k / 20) (k % 20)
  rw [hz (k / 20) hj, if_pos (by rw [h20]; omega)] at hs
  have hidx : MAX_MESSAGE_LENGTH * (k / 20) + k % 20 = k := by rw [h20]; omega
  rw [hidx, hk] at hs
  have hlt : k % 20 < MAX_MESSAGE_LENGTH := by rw [h20]; omega
  rw [List.getElem?_replicate, if_pos hlt] at hs
  exact (Option.some.inj hs).symm

/-- C17: in every state reached from the queue that `RingBuffer(filename, c, true)`
made by any sequence of calls, every slot whose index is not one of the `count`
occupied indices `head, head + 1, .., head + count - 1` (mod `c`) is 20 zero
bytes; when `count` is 0 the whole slot region is zero bytes.  (The capacity is
one whose file fits the `size_t` offsets.) -/
theorem vacant_slots_zero (path : PathState) (c : Nat) (rb : RingBuffer) (ks : List Call)
    (hf : Fits c) (hnew : RingBuffer.new path c true = .ok rb) :
    (∀ j, j < c →
      (∀ i, i < (headerOf (rb.run ks).2).count →
        ((headerOf (rb.run ks).2).head + i) % c ≠ j) →
      slotAt (slotsOf (rb.run ks).2) j = List.replicate MAX_MESSAGE_LENGTH 0) ∧
    ((headerOf (rb.run ks).2).count = 0 →
      slotsOf (rb.run ks).2 = List.replicate (MAX_MESSAGE_LENGTH * c) 0) := by
  rw [new_ok_eq_freshQueue hf hnew]
  rcases Nat.eq_zero_or_pos c with hc | hc
  · subst hc
    obtain ⟨-, r2, -, -⟩ := zero_capacity_run ks (freshQueue 0) rfl rfl
    refine ⟨fun j hj => absurd hj (Nat.not_lt_zero j), fun _ => ?_⟩
    unfold slotsOf
    rw [r2]
    decide
  · obtain ⟨h, slots, hr, -, hcount, -, -, hvac⟩ :=
      run_holds ks (freshQueue_holds c hc hf)
    rw [hr.headerOf_eq, hr.slotsOf_eq, hcount]
    refine ⟨hvac, fun h0 => ?_⟩
    apply slots_eq_zeros slots c hr.len
    intro j hj
    apply hvac j hj
    intro i hi
    omega

set_option maxRecDepth 1000000 in
/-- C17 at capacity 3 after a push, a second push and a pop: slot 1 is occupied,
slots 0 and 2 are zero bytes; and after one more pop the slot region is 60 zero
bytes. -/
theorem vacant_slots_zero_witness :
    Fits 3 ∧ RingBuffer.new PathState.absent 3 true = .ok (freshQueue 3) ∧
    headerOf ((freshQueue 3).run [.pushMessage (ascii "Msg1"), .pushMessage (ascii "Msg2"),
      .popMessage]).2 = { capacity := 3, head := 1, tail := 2, count := 1 } ∧
    slotAt (slotsOf ((freshQueue 3).run [.pushMessage (ascii "Msg1"),
      .pushMessage (ascii "Msg2"), .popMessage]).2) 0 = List.replicate MAX_MESSAGE_LENGTH 0 ∧
    slotAt (slotsOf ((freshQueue 3).run [.pushMessage (ascii "Msg1"),
      .pushMessage (ascii "Msg2"), .popMessage]).2) 2 = List.replicate MAX_MESSAGE_LENGTH 0 ∧
    slotsOf ((freshQueue 3).run [.pushMessage (ascii "Msg1"),
      .pushMessage (ascii "Msg2"), .popMessage, .popMessage]).2 =
      List.replicate (MAX_MESSAGE_LENGTH * 3) 0 :=
  ⟨by decide, by decide, by decide,
    (vacant_slots_zero PathState.absent 3 (freshQueue 3) _ (by decide) (by decide)).1 0
      (by decide) (by decide),
    (vacant_slots_zero PathState.absent 3 (freshQueue 3) _ (by decide) (by decide)).1 2
      (by decide) (by decide),
    (vacant_slots_zero PathState.absent 3 (freshQueue 3) _ (by decide) (by decide)).2
      (by decide)⟩

theorem header_read_within (c : Nat) : (IOOp.read HEADER_OFFSET sizeofHeader).Within c := by
  simp only [IOOp.Within, IOOp.pos, IOOp.size, HEADER_OFFSET]
  omega

theorem header_write_within (c : Nat) : (IOOp.write HEADER_OFFSET sizeofHeader).Within c := by
  simp only [IOOp.Within, IOOp.pos, IOOp.size, HEADER_OFFSET]
  omega

theorem slot_read_within (c i : Nat) (hi : i < c) :
    (IOOp.read (sizeofHeader + MAX_MESSAGE_LENGTH * i) MAX_MESSAGE_LENGTH).Within c := by
  have := slot_bound i c hi
  simp only [IOOp.Within, IOOp.pos, IOOp.size]
  omega

theorem slot_write_within (c i : Nat) (hi : i < c) :
    (IOOp.write (sizeofHeader + MAX_MESSAGE_LENGTH * i) MAX_MESSAGE_LENGTH).Within c := by
  have := slot_bound i c hi
  simp only [IOOp.Within, IOOp.pos, IOOp.size]
  omega

theorem freshQueue_log_within (c : Nat) :
    ∀ op, op ∈ (freshQueue c).file_manager_.log → op.Within c := by
  intro op hop
  simp only [freshQueue, slotWrites, List.mem_cons, List.mem_map, List.mem_range'_1] at hop
  rcases hop with h | ⟨j, ⟨-, hj⟩, h⟩
  · rw [h]; exact header_write_within c
  · rw [← h]; exact slot_write_within c j (by omega)

theorem call_log_within {c : Nat} {q : List (List Byte)} {rb : RingBuffer}
    (hh : Holds c q rb) (k : Call) :
    ∀ op, op ∈ (rb.call k).2.file_manager_.log →
      op ∈ rb.file_manager_.log ∨ op.Within c := by
  obtain ⟨h, slots, hr, ⟨i1, i2, i3, i4⟩, hcount, -⟩ := hh
  have hcap := hr.cap
  have hlog : ∀ op, op ∈ (rb.file_manager_.logged (.read HEADER_OFFSET sizeofHeader)).log →
      op ∈ rb.file_manager_.log ∨ op.Within c := by
    intro op hop
    simp only [FileManager.logged, List.mem_append, List.mem_singleton] at hop
    rcases hop with h1 | h1
    · exact Or.inl h1
    · rw [h1]; exact Or.inr (header_read_within c)
  cases k with
  | pushMessage m =>
    simp only [RingBuffer.call]
    by_cases hm : m.length > MAX_MESSAGE_LENGTH
    · rw [push_too_long rb m hm]
      exact fun op hop => Or.inl hop
    · by_cases hfull : h.count ≥ h.capacity
      · rw [push_full_of_readable rb m hr.readable (by omega) (by rw [hr.headerOf_eq]; exact hfull)]
        exact hlog
      · obtain ⟨-, -, -, hl⟩ := push_rep hr m (by omega) (by omega) (by omega)
        rw [hl]
        intro op hop
        simp only [List.mem_append, List.mem_cons, List.mem_singleton, List.not_mem_nil,
          or_false] at hop
        rcases hop with h1 | h1 | h1 | h1
        · exact Or.inl h1
        · rw [h1]; exact Or.inr (header_read_within c)
        · rw [h1]; exact Or.inr (slot_write_within c h.tail (by omega))
        · rw [h1]; exact Or.inr (header_write_within c)
  | popMessage =>
    simp only [RingBuffer.call]
    by_cases hempty : h.count = 0
    · rw [pop_empty_of_readable rb hr.readable (by rw [hr.headerOf_eq]; exact hempty)]
      exact hlog
    · obtain ⟨-, -, -, hl⟩ := pop_rep hr hempty (by omega)
      rw [hl]
      intro op hop
      simp only [List.mem_append, List.mem_cons, List.mem_singleton, List.not_mem_nil,
        or_false] at hop
      rcases hop with h1 | h1 | h1 | h1 | h1
      · exact Or.inl h1
      · rw [h1]; exact Or.inr (header_read_within c)
      · rw [h1]; exact Or.inr (slot_read_within c h.head (by omega))
      · rw [h1]; exact Or.inr (slot_write_within c h.head (by omega))
      · rw [h1]; exact Or.inr (header_write_within c)
  | isEmpty =>
    simp only [RingBuffer.call]
    rw [isEmpty_of_readable rb hr.readable]
    exact hlog
  | isFull =>
    simp only [RingBuffer.call]
    rw [isFull_of_readable rb hr.readable]
    exact hlog

theorem observed_no_io_error (c : Nat) (q : List (List Byte)) (k : Call) :
    observed c q k ≠ .threw .readFailed ∧ observed c q k ≠ .threw .writeFailed := by
  cases k with
  | pushMessage m =>
    simp only [observed, Fifo.call]
    split_ifs <;> exact ⟨by simp, by simp⟩
  | popMessage =>
    cases q with
    | nil => exact ⟨by simp [observed], by simp [observed]⟩
    | cons m q =>
      simp only [observed, popOutcome]
      cases cstring (padSlot m) <;> exact ⟨by simp [Outcome.map], by simp [Outcome.map]⟩
  | isEmpty => exact ⟨by simp [observed, Fifo.call], by simp [observed, Fifo.call]⟩
  | isFull => exact ⟨by simp [observed, Fifo.call], by simp [observed, Fifo.call]⟩

theorem run_within {c : Nat} (ks : List Call) {q : List (List Byte)} {rb : RingBuffer}
    (hh : Holds c q rb) (hlog : ∀ op, op ∈ rb.file_manager_.log → op.Within c) :
    (∀ op, op ∈ (rb.run ks).2.file_manager_.log → op.Within c) ∧
    (∀ o, o ∈ (rb.run ks).1 → o ≠ .threw .readFailed ∧ o ≠ .threw .writeFailed) := by
  induction ks generalizing q rb with
  | nil => exact ⟨hlog, fun o ho => by cases ho⟩
  | cons k ks ih =>
    obtain ⟨h1, h2⟩ := call_holds hh k
    have hlog2 : ∀ op, op ∈ (rb.call k).2.file_manager_.log → op.Within c := by
      intro op hop
      rcases call_log_within hh k op hop with h3 | h3
      · exact hlog op h3
      · exact h3
    obtain ⟨r1, r2⟩ := ih h2 hlog2
    simp only [RingBuffer.run]
    refine ⟨r1, ?_⟩
    intro o ho
    rcases List.mem_cons.mp ho with h3 | h3
    · rw [h3, h1]; exact observed_no_io_error c q k
    · exact r2 o h3

theorem zeroCapacityReply_no_io_error (k : Call) :
    zeroCapacityReply k ≠ .threw .readFailed ∧ zeroCapacityReply k ≠ .threw .writeFailed := by
  cases k with
  | pushMessage m =>
    simp only [zeroCapacityReply]
    split_ifs <;> exact ⟨by simp, by simp⟩
  | popMessage => exact ⟨by simp [zeroCapacityReply], by simp [zeroCapacityReply]⟩
  | isEmpty => exact ⟨by simp [zeroCapacityReply], by simp [zeroCapacityReply]⟩
  | isFull => exact ⟨by simp [zeroCapacityReply], by simp [zeroCapacityReply]⟩

/-- C18: in every state reached from the queue that `RingBuffer(filename, c, true)`
made by any sequence of calls, the file has exactly `sizeof(RingBufferHeader) + 20 * c`
bytes; the 20 bytes at `sizeof(RingBufferHeader) + tail * 20`, which a push
writes, and at `sizeof(RingBufferHeader) + head * 20`, which a pop reads and
zeroes, lie inside the file; every read and write made so far lay inside it;
no call has failed with a read or write error, and the stream is good.  (The
capacity is one whose file fits the `size_t` offsets.) -/
theorem slot_access_in_bounds (path : PathState) (c : Nat) (rb : RingBuffer) (ks : List Call)
    (hf : Fits c) (hnew : RingBuffer.new path c true = .ok rb) :
    (rb.run ks).2.file_manager_.bytes.length = sizeofHeader + MAX_MESSAGE_LENGTH * c ∧
    (1 ≤ c →
      sizeofHeader + (headerOf (rb.run ks).2).tail * MAX_MESSAGE_LENGTH + MAX_MESSAGE_LENGTH ≤
        (rb.run ks).2.file_manager_.bytes.length ∧
      sizeofHeader + (headerOf (rb.run ks).2).head * MAX_MESSAGE_LENGTH + MAX_MESSAGE_LENGTH ≤
        (rb.run ks).2.file_manager_.bytes.length) ∧
    (∀ op, op ∈ (rb.run ks).2.file_manager_.log →
      op.pos + op.size ≤ sizeofHeader + MAX_MESSAGE_LENGTH * c) ∧
    (∀ o, o ∈ (rb.run ks).1 → o ≠ .threw .readFailed ∧ o ≠ .threw .writeFailed) ∧
    (rb.run ks).2.file_manager_.good = true := by
  rw [new_ok_eq_freshQueue hf hnew]
  rcases Nat.eq_zero_or_pos c with hc | hc
  · subst hc
    obtain ⟨r1, r2, r3, r4⟩ := zero_capacity_run ks (freshQueue 0) rfl rfl
    refine ⟨by rw [r2]; decide, fun h => absurd h (by decide), ?_, ?_, r3⟩
    · intro op hop
      rcases r4 op hop with h1 | h1
      · exact freshQueue_log_within 0 op h1
      · rw [h1]; exact header_read_within 0
    · intro o ho
      rw [r1] at ho
      obtain ⟨k, -, hk⟩ := List.mem_map.mp ho
      rw [← hk]
      exact zeroCapacityReply_no_io_error k
  · have hh := run_holds ks (freshQueue_holds c hc hf)
    obtain ⟨w1, w2⟩ := run_within ks (freshQueue_holds c hc hf) (freshQueue_log_within c)
    obtain ⟨h, slots, hr, ⟨i1, i2, i3, i4⟩, -⟩ := hh
    have hlen : ((freshQueue c).run ks).2.file_manager_.bytes.length =
        sizeofHeader + MAX_MESSAGE_LENGTH * c := by
      rw [hr.bytes, List.length_append, encodeHeader_length, hr.len]
    have hcap := hr.cap
    refine ⟨hlen, fun _ => ?_, w1, w2, hr.good⟩
    rw [hr.headerOf_eq, hlen]
    have b1 := slot_bound h.tail c (by omega)
    have b2 := slot_bound h.head c (by omega)
    rw [Nat.mul_comm h.tail, Nat.mul_comm h.head]
    omega

set_option maxRecDepth 1000000 in
/-- C18 at capacity 3 after the calls that wrap the tail: the file still has 92
bytes, and the next push and the next pop would touch bytes 52 to 71. -/
theorem slot_access_in_bounds_witness :
    Fits 3 ∧ RingBuffer.new PathState.absent 3 true = .ok (freshQueue 3) ∧
    ((freshQueue 3).run wrapCalls).2.file_manager_.bytes.length = 92 ∧
    (sizeofHeader + (headerOf ((freshQueue 3).run wrapCalls).2).tail * MAX_MESSAGE_LENGTH +
        MAX_MESSAGE_LENGTH ≤ ((freshQueue 3).run wrapCalls).2.file_manager_.bytes.length ∧
      sizeofHeader + (headerOf ((freshQueue 3).run wrapCalls).2).head * MAX_MESSAGE_LENGTH +
        MAX_MESSAGE_LENGTH ≤ ((freshQueue 3).run wrapCalls).2.file_manager_.bytes.length) ∧
    sizeofHeader + (headerOf ((freshQueue 3).run wrapCalls).2).tail * MAX_MESSAGE_LENGTH = 52 :=
  ⟨by decide, by decide,
    (slot_access_in_bounds PathState.absent 3 (freshQueue 3) wrapCalls (by decide)
      (by decide)).1,
    (slot_access_in_bounds PathState.absent 3 (freshQueue 3) wrapCalls (by decide)
      (by decide)).2.1 (by decide),
    by decide⟩

/-! ## Round trips -/

theorem takeWhile_append_zeros (m : List Byte) (k : Nat) :
    (m ++ List.replicate k (0 : Byte)).takeWhile (fun b => b ≠ 0) =
      m.takeWhile (fun b => b ≠ 0) := by
  induction m with
  | nil => cases k <;> simp [List.replicate_succ]
  | cons b m ih =>
    by_cases hb : b = 0
    · simp [List.takeWhile_cons, hb]
    · have hd : decide (b ≠ 0) = true := by simpa using hb
      simp only [List.cons_append, List.takeWhile_cons, hd, if_true, ih]

theorem zero_not_mem_takeWhile (m : List Byte) :
    (0 : Byte) ∉ m.takeWhile (fun b => b ≠ 0) := by
  induction m with
  | nil => simp
  | cons b m ih =>
    by_cases hb : b = 0
    · simp [List.takeWhile_cons, hb]
    · have hd : decide (b ≠ 0) = true := by simpa using hb
      simp only [List.takeWhile_cons, hd, if_true, List.mem_cons, not_or]
      exact ⟨fun h => hb h.symm, ih⟩

theorem popOutcome_padSlot_of_zero (m : List Byte) (hz : (0 : Byte) ∈ m) :
    popOutcome (padSlot m) = .ok (m.takeWhile (fun b => b ≠ 0)) := by
  rw [popOutcome_of_zero _ (by unfold padSlot; exact List.mem_append_left _ hz), padSlot_eq,
    takeWhile_append_zeros]

theorem popOutcome_padSlot_full (m : List Byte) (hl : m.length = MAX_MESSAGE_LENGTH)
    (hz : (0 : Byte) ∉ m) : popOutcome (padSlot m) = .undefined .unterminatedString := by
  unfold popOutcome
  rw [cstring_full_slot m hl hz]

/-- One round on a ring whose file is in canonical form with `count == 0`: the
push succeeds, the pop reads the slot just written, and the file is again in
canonical form with `count == 0`, head and tail one slot further. -/
theorem push_pop_round {c : Nat} {rb : RingBuffer} {slots : List Byte} {t : Nat}
    (hr : Rep c rb { capacity := c, head := t, tail := t, count := 0 } slots) (ht : t < c)
    (m : List Byte) (hm : m.length ≤ MAX_MESSAGE_LENGTH) :
    (rb.pushMessage m).1 = .ok () ∧
    (rb.pushMessage m).2.popMessage.1 = popOutcome (padSlot m) ∧
    ∃ slots2, Rep c (rb.pushMessage m).2.popMessage.2
      { capacity := c, head := (t + 1) % c, tail := (t + 1) % c, count := 0 } slots2 := by
  obtain ⟨h1, h2, -, -⟩ := push_rep hr m hm (by simpa using (by omega : 0 < c)) ht
  have hne : (RingBufferHeader.pushed
      { capacity := c, head := t, tail := t, count := 0 }).count ≠ 0 := by
    simp [RingBufferHeader.pushed]
  obtain ⟨h3, h4, -, -⟩ := pop_rep h2 hne ht
  refine ⟨h1, ?_, _, h4⟩
  rw [h3]
  congr 1
  exact slotAt_writeAt_same slots _ t c hr.len ht (padSlot_length m hm)

theorem rounds_on_clean_messages {c : Nat} (ms : List (List Byte)) {rb : RingBuffer}
    {slots : List Byte} {t : Nat}
    (hr : Rep c rb { capacity := c, head := t, tail := t, count := 0 } slots) (ht : t < c)
    (hms : ∀ m, m ∈ ms → Clean m) :
    (rb.run (rounds ms)).1 = roundReplies ms ∧
    ∃ slots2, Rep c (rb.run (rounds ms)).2
      { capacity := c, head := (t + ms.length) % c, tail := (t + ms.length) % c, count := 0 }
      slots2 := by
  induction ms generalizing rb slots t with
  | nil =>
    refine ⟨rfl, slots, ?_⟩
    simp only [rounds, RingBuffer.run, List.length_nil, Nat.add_zero, Nat.mod_eq_of_lt ht]
    exact hr
  | cons m ms ih =>
    have hclean := hms m (List.mem_cons_self _ _)
    obtain ⟨h1, h2, slots2, h3⟩ := push_pop_round hr ht m (Nat.le_of_lt hclean.1)
    obtain ⟨h4, slots3, h5⟩ := ih h3 (Nat.mod_lt _ (by omega))
      (fun m1 hm1 => hms m1 (List.mem_cons_of_mem _ hm1))
    rw [popOutcome_padSlot m hclean] at h2
    simp only [rounds, roundReplies, RingBuffer.run, RingBuffer.call, h1, h2, Outcome.map, h4]
    refine ⟨trivial, slots3, ?_⟩
    rw [List.length_cons, ← ring_index_succ]
    exact h5

/-- Repeated push-then-pop for messages that survive the slot: on a queue of
capacity `c >= 1` made by the constructor, `n` rounds of a push followed by a
pop, with messages shorter than `MAX_MESSAGE_LENGTH` and free of zero bytes,
never fail, every pop returns the message just pushed, and afterwards
`isEmpty()` is true and `head == tail == n mod c`. -/
theorem push_pop_rounds_on_clean_messages (path : PathState) (c : Nat) (rb : RingBuffer)
    (ms : List (List Byte)) (hc : 1 ≤ c) (hf : Fits c)
    (hnew : RingBuffer.new path c true = .ok rb) (hms : ∀ m, m ∈ ms → Clean m) :
    (rb.run (rounds ms)).1 = roundReplies ms ∧
    (rb.run (rounds ms)).2.isEmpty.1 = .ok true ∧
    (headerOf (rb.run (rounds ms)).2).head = ms.length % c ∧
    (headerOf (rb.run (rounds ms)).2).tail = ms.length % c := by
  rw [new_ok_eq_freshQueue hf hnew]
  obtain ⟨h1, slots2, h2⟩ := rounds_on_clean_messages ms (freshQueue_rep c hf) (by omega) hms
  rw [Nat.zero_add] at h2
  refine ⟨h1, ?_, ?_, ?_⟩
  · rw [isEmpty_of_readable _ h2.readable, h2.headerOf_eq]; rfl
  · rw [h2.headerOf_eq]
  · rw [h2.headerOf_eq]

set_option maxRecDepth 1000000 in
/-- C15 at its failing input: two rounds on a queue of capacity 2, the second
with a message of twenty bytes `y`; the first round hands "Message0" back, in
the second the push is accepted and the pop leaves defined behaviour, while the
header ends with `head == tail == 0` and `count == 0` as the claim says. -/
theorem push_pop_rounds_break_at_full_length_message :
    RingBuffer.new PathState.absent 2 true = .ok (freshQueue 2) ∧
    ((freshQueue 2).run (rounds [ascii "Message0", List.replicate 20 121])).1 =
      [.ok .done, .ok (.message (ascii "Message0")), .ok .done,
        .undefined .unterminatedString] ∧
    ((freshQueue 2).run (rounds [ascii "Message0", List.replicate 20 121])).1 ≠
      roundReplies [ascii "Message0", List.replicate 20 121] ∧
    headerOf ((freshQueue 2).run (rounds [ascii "Message0", List.replicate 20 121])).2 =
      { capacity := 2, head := 0, tail := 0, count := 0 } := by
  refine ⟨by decide, by decide, by decide, by decide⟩

/-! ## Messages with a zero byte -/

/-- The pop that matches the push of a message with a zero byte returns the
bytes before the first zero byte: here the message is the oldest in the ring. -/
theorem matching_pop_truncates {c : Nat} {m : List Byte} {q : List (List Byte)}
    {rb : RingBuffer} (hh : Holds c (m :: q) rb) (hz : (0 : Byte) ∈ m) :
    rb.popMessage.1 = .ok (m.takeWhile (fun b => b ≠ 0)) ∧
    m.takeWhile (fun b => b ≠ 0) ≠ m := by
  refine ⟨by rw [(pop_holds hh).1, popOutcome_padSlot_of_zero m hz], ?_⟩
  intro he
  have := zero_not_mem_takeWhile m
  rw [he] at this
  exact this hz

/-- Truncation at a zero byte: on a ring that is not full, the push of a message
of at most `MAX_MESSAGE_LENGTH` bytes that has a zero byte succeeds and puts
every byte of the message into the slot at the tail; with the ring empty
before, the pop that follows returns the bytes before the first zero byte,
which are fewer than the message has. -/
theorem round_trip_truncates (c : Nat) (q : List (List Byte)) (rb : RingBuffer)
    (m : List Byte) (hh : Holds c q rb) (hq : q.length < c)
    (hm : m.length ≤ MAX_MESSAGE_LENGTH) (hz : (0 : Byte) ∈ m) :
    (rb.pushMessage m).1 = .ok () ∧
    slotAt (slotsOf (rb.pushMessage m).2) (headerOf rb).tail =
      m ++ List.replicate (MAX_MESSAGE_LENGTH - m.length) 0 ∧
    (q = [] →
      (rb.pushMessage m).2.popMessage.1 = .ok (m.takeWhile (fun b => b ≠ 0)) ∧
      m.takeWhile (fun b => b ≠ 0) ≠ m) := by
  have hh2 := hh
  obtain ⟨h, slots, hr, ⟨i1, i2, i3, i4⟩, hcount, -⟩ := hh2
  have hcap := hr.cap
  obtain ⟨p1, p2, -, -⟩ := push_rep hr m hm (by omega) (by omega)
  obtain ⟨-, q2⟩ := push_holds hh m hm hq
  refine ⟨p1, ?_, ?_⟩
  · rw [p2.slotsOf_eq, hr.headerOf_eq, ← padSlot_eq]
    exact slotAt_writeAt_same slots _ h.tail c hr.len (by omega) (padSlot_length m hm)
  · intro hq0
    subst hq0
    exact matching_pop_truncates (by simpa using q2) hz

/-- Below the full length the round trip gives the message back exactly when
the message has no zero byte. -/
theorem round_trip_iff_no_zero_below_full_length (c : Nat) (rb : RingBuffer) (m : List Byte)
    (hh : Holds c [] rb) (hm : m.length < MAX_MESSAGE_LENGTH) :
    (rb.pushMessage m).2.popMessage.1 = .ok m ↔ (0 : Byte) ∉ m := by
  have hc : 0 < c := by
    obtain ⟨h, slots, hr, ⟨-, i2, -⟩, -⟩ := hh
    rw [← hr.cap]; omega
  obtain ⟨-, h2⟩ := push_holds hh m (Nat.le_of_lt hm) (by simpa using hc)
  have h3 := (pop_holds (show Holds c (m :: []) _ by simpa using h2)).1
  constructor
  · intro hok hz
    rw [h3, popOutcome_padSlot_of_zero m hz] at hok
    have := zero_not_mem_takeWhile m
    rw [Outcome.ok.inj hok] at this
    exact this hz
  · intro hz
    rw [h3, popOutcome_padSlot m ⟨hm, hz⟩]

theorem takeWhile_length_lt_of_zero (m : List Byte) (hz : (0 : Byte) ∈ m) :
    (m.takeWhile (fun b => b ≠ 0)).length < m.length := by
  induction m with
  | nil => cases hz
  | cons b m ih =>
    by_cases hb : b = 0
    · simp [List.takeWhile_cons, hb]
    · have hd : decide (b ≠ 0) = true := by simpa using hb
      have hz2 : (0 : Byte) ∈ m := by
        rcases List.mem_cons.mp hz with h | h
        · exact absurd h.symm hb
        · exact h
      simp only [List.takeWhile_cons, hd, if_true, List.length_cons]
      exact Nat.succ_lt_succ (ih hz2)

/-- Popping as many times as there are older messages leaves the ring with the
messages behind them, whatever those pops return. -/
theorem pops_through {c : Nat} (q r : List (List Byte)) {rb : RingBuffer}
    (hh : Holds c (q ++ r) rb) :
    Holds c r (rb.run (List.replicate q.length .popMessage)).2 := by
  induction q generalizing rb with
  | nil => exact hh
  | cons a q ih =>
    have h2 := (pop_holds (show Holds c (a :: (q ++ r)) rb from hh)).2
    simp only [List.length_cons, List.replicate_succ, RingBuffer.run, RingBuffer.call]
    exact ih h2

/-- C20: for every message of at most `MAX_MESSAGE_LENGTH` bytes that has a zero
byte, on a ring that holds a queue `q` and is not full: the push succeeds and
puts every byte of the message into the slot at the tail (zero bytes after it);
the pop that matches it, the one after the pops of the `q.length` older
messages, returns the bytes before the first zero byte of the message, which
are fewer than the message has; so that pop returns the message itself exactly
when the message has no zero byte, which here it never does. -/
theorem truncation_at_zero_byte (c : Nat) (q : List (List Byte)) (rb : RingBuffer)
    (m : List Byte) (hh : Holds c q rb) (hq : q.length < c)
    (hm : m.length ≤ MAX_MESSAGE_LENGTH) (hz : (0 : Byte) ∈ m) :
    (rb.pushMessage m).1 = .ok () ∧
    slotAt (slotsOf (rb.pushMessage m).2) (headerOf rb).tail =
      m ++ List.replicate (MAX_MESSAGE_LENGTH - m.length) 0 ∧
    ((rb.pushMessage m).2.run (List.replicate q.length .popMessage)).2.popMessage.1 =
      .ok (m.takeWhile (fun b => b ≠ 0)) ∧
    (m.takeWhile (fun b => b ≠ 0)).length < m.length ∧
    (((rb.pushMessage m).2.run (List.replicate q.length .popMessage)).2.popMessage.1 = .ok m ↔
      (0 : Byte) ∉ m) := by
  obtain ⟨p1, p2, -⟩ := round_trip_truncates c q rb m hh hq hm hz
  obtain ⟨-, q2⟩ := push_holds hh m hm hq
  obtain ⟨r1, r2⟩ := matching_pop_truncates
    (show Holds c (m :: []) _ from pops_through q [m] q2) hz
  refine ⟨p1, p2, r1, takeWhile_length_lt_of_zero m hz, ?_⟩
  constructor
  · intro hok
    rw [r1] at hok
    exact absurd (Outcome.ok.inj hok) r2
  · intro hnz
    exact absurd hz hnz

set_option maxRecDepth 1000000 in
/-- C20 on a queue of capacity 3 that holds "Msg1": the bytes `a b 0 c d` are
pushed into slot 1 whole; the first pop returns "Msg1", the second, which
matches the push, returns `a b`. -/
theorem truncation_at_zero_byte_witness :
    Holds 3 [ascii "Msg1"] ((freshQueue 3).pushMessage (ascii "Msg1")).2 ∧
    (0 : Byte) ∈ ([97, 98, 0, 99, 100] : List Byte) ∧
    ((((freshQueue 3).pushMessage (ascii "Msg1")).2.pushMessage [97, 98, 0, 99, 100]).1 =
        .ok () ∧
      slotAt (slotsOf (((freshQueue 3).pushMessage (ascii "Msg1")).2.pushMessage
          [97, 98, 0, 99, 100]).2) (headerOf ((freshQueue 3).pushMessage (ascii "Msg1")).2).tail =
        [97, 98, 0, 99, 100] ++
          List.replicate (MAX_MESSAGE_LENGTH - ([97, 98, 0, 99, 100] : List Byte).length) 0 ∧
      ((((freshQueue 3).pushMessage (ascii "Msg1")).2.pushMessage [97, 98, 0, 99, 100]).2.run
          (List.replicate [ascii "Msg1"].length .popMessage)).2.popMessage.1 =
        .ok (([97, 98, 0, 99, 100] : List Byte).takeWhile (fun b => b ≠ 0))) ∧
    ((((freshQueue 3).pushMessage (ascii "Msg1")).2.pushMessage [97, 98, 0, 99, 100]).2.run
        [.popMessage, .popMessage]).1 =
      [.ok (.message (ascii "Msg1")), .ok (.message [97, 98])] :=
  ⟨(push_holds (freshQueue_holds 3 (by decide) (by decide)) (ascii "Msg1") (by decide)
      (by decide)).2,
    by decide,
    ⟨(truncation_at_zero_byte 3 [ascii "Msg1"] ((freshQueue 3).pushMessage (ascii "Msg1")).2
        [97, 98, 0, 99, 100]
        (push_holds (freshQueue_holds 3 (by decide) (by decide)) (ascii "Msg1") (by decide)
          (by decide)).2 (by decide) (by decide) (by decide)).1,
      (truncation_at_zero_byte 3 [ascii "Msg1"] ((freshQueue 3).pushMessage (ascii "Msg1")).2
        [97, 98, 0, 99, 100]
        (push_holds (freshQueue_holds 3 (by decide) (by decide)) (ascii "Msg1") (by decide)
          (by decide)).2 (by decide) (by decide) (by decide)).2.1,
      (truncation_at_zero_byte 3 [ascii "Msg1"] ((freshQueue 3).pushMessage (ascii "Msg1")).2
        [97, 98, 0, 99, 100]
        (push_holds (freshQueue_holds 3 (by decide) (by decide)) (ascii "Msg1") (by decide)
          (by decide)).2 (by decide) (by decide) (by decide)).2.2.1⟩,
    by decide⟩

/-! ## Two pushes through two handles -/

/-- The three steps of `pushStep`, taken one after the other on one stream with
nothing in between, are the call `pushMessage`. -/
theorem pushStep_thrice (rb : RingBuffer) (m : List Byte) :
    pushStep m (pushStep m (pushStep m .start rb.file_manager_).1
        (pushStep m .start rb.file_manager_).2).1
      (pushStep m (pushStep m .start rb.file_manager_).1
        (pushStep m .start rb.file_manager_).2).2 =
      (.finished (rb.pushMessage m).1, (rb.pushMessage m).2.file_manager_) := by
  obtain ⟨c, b, g, l⟩ := rb
  simp only [pushStep, RingBuffer.pushMessage, FileManager.read, FileManager.write]
  split_ifs <;> (simp_all [pushStep, FileManager.write]; try (split_ifs <;> simp_all))

theorem pops_on_empty {c : Nat} (n : Nat) {rb : RingBuffer} (hh : Holds c [] rb) :
    (rb.run (List.replicate n .popMessage)).1 = List.replicate n (.threw .bufferEmpty) := by
  induction n generalizing rb with
  | zero => rfl
  | succ n ih =>
    obtain ⟨h1, h2⟩ := pop_empty_holds hh
    simp only [List.replicate_succ, RingBuffer.run, RingBuffer.call, h1, Outcome.map, ih h2]

theorem pops_on_last {c : Nat} (n : Nat) {m : List Byte} {rb : RingBuffer}
    (hh : Holds c [m] rb) (hm : Clean m) :
    (rb.run (List.replicate (n + 1) .popMessage)).1 =
      .ok (.message m) :: List.replicate n (.threw .bufferEmpty) := by
  obtain ⟨h1, h2⟩ := pop_holds hh
  rw [popOutcome_padSlot m hm] at h1
  simp only [List.replicate_succ, RingBuffer.run, RingBuffer.call, h1, Outcome.map,
    pops_on_empty n h2]

set_option maxRecDepth 1000000 in
/-- C16: a lost update.  Two handles are attached to the file of a fresh queue of
capacity 2; one pushes "AAAA", the other "BBBB", and their steps alternate:
both read the header, both write slot 0, both write the header.  Both calls
return normally, yet `count` goes from 0 to 1 only, slot 0 holds "BBBB", and a
queue attached to the file afterwards pops "BBBB" and then finds the buffer
empty however often it pops: "AAAA" is never returned.  Run one after the
other, the same two calls leave `count == 2` and both messages. -/
theorem lost_update_under_interleaving :
    RingBuffer.attach (.present (freshQueue 2).file_manager_.bytes) =
      .ok (attachedTo (freshQueue 2).file_manager_.bytes) ∧
    (attachedTo (freshQueue 2).file_manager_.bytes).file_manager_ =
      (Pusher.attached (freshQueue 2).file_manager_.bytes (ascii "AAAA")).stream ∧
    (headerOf (freshQueue 2)).count = 0 ∧
    (twoPushes [true, false, true, false, true, false]).1.stage = .finished (.ok ()) ∧
    (twoPushes [true, false, true, false, true, false]).2.1.stage = .finished (.ok ()) ∧
    (twoPushes [true, false, true, false, true, false]).2.2 =
      encodeHeader { capacity := 2, head := 0, tail := 1, count := 1 } ++
        (padSlot (ascii "BBBB") ++ List.replicate MAX_MESSAGE_LENGTH 0) ∧
    (∀ n : Nat,
      ((attachedTo (twoPushes [true, false, true, false, true, false]).2.2).run
          (List.replicate (n + 1) .popMessage)).1 =
        .ok (.message (ascii "BBBB")) :: List.replicate n (.threw .bufferEmpty)) ∧
    (twoPushes [true, true, true, false, false, false]).2.2 =
      encodeHeader { capacity := 2, head := 0, tail := 0, count := 2 } ++
        (padSlot (ascii "AAAA") ++ padSlot (ascii "BBBB")) ∧
    ((attachedTo (twoPushes [true, true, true, false, false, false]).2.2).run
        [.popMessage, .popMessage]).1 =
      [.ok (.message (ascii "AAAA")), .ok (.message (ascii "BBBB"))] := by
  refine ⟨by decide, by decide, by decide, by decide, by decide, by decide, ?_, by decide,
    by decide⟩
  intro n
  have h1 : Holds 2 [ascii "BBBB"] ((freshQueue 2).pushMessage (ascii "BBBB")).2 := by
    have := (push_holds (freshQueue_holds 2 (by decide) (by decide)) (ascii "BBBB")
      (by decide) (by decide)).2
    simpa using this
  have h2 : Holds 2 [ascii "BBBB"]
      (attachedTo (twoPushes [true, false, true, false, true, false]).2.2) :=
    h1.transfer_holds rfl (by decide)
  exact pops_on_last n h2 (by decide)

end RingBufferSpec
